import Mathlib

/-!
Verification of the xcmapping diff reporter
(`SideStore/Utils/misc/xcmapping-diff-reporter/xcmapping-diff.py`).

The script recursively compares two XML trees and collects diff records.
We shallowly embed its data model and engine:

* `Elem` mirrors `xml.etree.ElementTree.Element`: a tag, an ordered
  attribute list, optional text (`None` as `none`), and a child list.
  Children are stored as the isomorphic mutual type `ElemList` so that
  all recursion over trees is structural (and kernel-reducible); the
  accessor `Elem.children` exposes them as an ordinary `List Elem`.
* `DRec` mirrors one `(diff_type, diff_info)` pair appended by
  `append_diff`; optional dictionary entries become `Option` fields, and
  an entry that is present with Python value `None` (as happens for the
  `old`/`new` values of an attribute mismatch) is `some none`.
* Python raising `AttributeError` (calling `.strip()` on a `None` text)
  is modelled by `Option` results: `none` means the call raises.
* The engine's recursion is totalized with a fuel parameter; the public
  wrappers supply `sizeOf`-based fuel, which is proved sufficient by the
  fuel-irrelevance lemma below.
* Python iterates `set(...)` unions in an unspecified order; we fix a
  deterministic order (left operand first), which is harmless for the
  set-level properties considered here.
-/

/-- ASCII whitespace stripped by Python `str.strip()`. -/
def isPySpace (c : Char) : Bool :=
  c == ' ' || c == '\t' || c == '\n' || c == '\r' || c == '\x0b' || c == '\x0c'

/-- Python `s.strip()` (ASCII whitespace). -/
def pstrip (s : String) : String :=
  String.mk (((s.data.dropWhile isPySpace).reverse.dropWhile isPySpace).reverse)

/-- A single-quote character, kept out of string literals. -/
def sQuote : String := "\x27"

-- Constants from the script.

def IGNORED_ATTRIBUTES : List String :=
  ["sourcemodeldata", "destinationmodeldata", "id", "idrefs", "mappingnumber"]

def CATEGORY_EXTRA : String := "extra in new.xml"

def CATEGORY_MISSING : String := "missing in new.xml while present in old.xml"

def CATEGORY_MISMATCH : String := "mismatching in old.xml and new.xml"

def TYPE_MISMATCH : String := "mismatch"

def TYPE_MISSING : String := "missing node"

def TYPE_EXTRA : String := "extra node"

mutual
/-- An XML element: tag, attributes (name/value pairs), optional text,
children.  Mirrors `xml.etree.ElementTree.Element`. -/
inductive Elem : Type where
  | mk : String → List (String × String) → Option String → ElemList → Elem

/-- The children of an element (isomorphic to `List Elem`). -/
inductive ElemList : Type where
  | nil : ElemList
  | cons : Elem → ElemList → ElemList
end

deriving instance DecidableEq for Elem

/-- View an `ElemList` as a `List Elem`. -/
def ElemList.toList : ElemList → List Elem
  | .nil => []
  | .cons e r => e :: r.toList

/-- Build an `ElemList` from a `List Elem`. -/
def ElemList.ofList : List Elem → ElemList
  | [] => .nil
  | e :: r => .cons e (ElemList.ofList r)

/-- Element literal taking children as an ordinary list. -/
def elem (t : String) (a : List (String × String)) (x : Option String)
    (c : List Elem) : Elem :=
  Elem.mk t a x (ElemList.ofList c)

def Elem.tag : Elem → String
  | .mk t _ _ _ => t

def Elem.attrib : Elem → List (String × String)
  | .mk _ a _ _ => a

def Elem.text : Elem → Option String
  | .mk _ _ x _ => x

def Elem.children : Elem → List Elem
  | .mk _ _ _ c => c.toList

@[simp] theorem Elem.tag_mk (t a x c) : (Elem.mk t a x c).tag = t := rfl

@[simp] theorem Elem.attrib_mk (t a x c) : (Elem.mk t a x c).attrib = a := rfl

@[simp] theorem Elem.text_mk (t a x c) : (Elem.mk t a x c).text = x := rfl

@[simp] theorem Elem.children_mk (t a x c) : (Elem.mk t a x c).children = c.toList := rfl

@[simp] theorem elem_tag (t a x c) : (elem t a x c).tag = t := rfl

@[simp] theorem elem_attrib (t a x c) : (elem t a x c).attrib = a := rfl

@[simp] theorem elem_text (t a x c) : (elem t a x c).text = x := rfl

theorem ElemList.toList_ofList (l : List Elem) : (ElemList.ofList l).toList = l := by
  induction l with
  | nil => rfl
  | cons e r ih => simp [ElemList.ofList, ElemList.toList, ih]

@[simp] theorem elem_children (t a x c) : (elem t a x c).children = c := by
  simp [elem, Elem.children, ElemList.toList_ofList]

mutual
/-- Structural size of an element (computable measure used as fuel). -/
def Elem.size : Elem → Nat
  | .mk _ _ _ c => c.size + 1

/-- Structural size of a child list. -/
def ElemList.size : ElemList → Nat
  | .nil => 0
  | .cons e r => e.size + r.size
end

/-- Size of an ordinary list of elements. -/
def listSize (l : List Elem) : Nat := (l.map Elem.size).sum

theorem ElemList.size_toList : ∀ l : ElemList, listSize l.toList = l.size
  | .nil => by simp [ElemList.toList, listSize, ElemList.size]
  | .cons e r => by
    have ih := ElemList.size_toList r
    simp only [ElemList.toList, listSize, ElemList.size, List.map_cons, List.sum_cons] at ih ⊢
    omega

theorem listSize_le_of_mem {a : Elem} {l : List Elem} (h : a ∈ l) :
    Elem.size a ≤ listSize l := by
  unfold listSize
  exact List.single_le_sum (by intro x _; omega) _ (List.mem_map_of_mem Elem.size h)

theorem Elem.size_pos (e : Elem) : 0 < e.size := by
  cases e with
  | mk t a x c => simp [Elem.size]

theorem Elem.size_lt_of_mem_children {a e : Elem} (h : a ∈ e.children) :
    Elem.size a < Elem.size e := by
  cases e with
  | mk t at' x c =>
    simp only [Elem.children_mk] at h
    have h1 := listSize_le_of_mem h
    rw [ElemList.size_toList] at h1
    simp only [Elem.size]
    omega

/-- One diff record: the `(diff_type, diff_info)` pair built by
`append_diff`.  Field order: kind, category, path, old, new, value,
subtype (the dictionary key `type`). -/
structure DRec where
  kind : String
  category : String
  path : String
  old : Option (Option String) := none
  new : Option (Option String) := none
  value : Option String := none
  subtype : Option String := none
deriving DecidableEq, Repr

/-- `elem.find("attribute[@name='nm']")`: first direct child tagged
`attribute` whose `name` attribute equals `nm`. -/
def findAttrChild (e : Elem) (nm : String) : Option Elem :=
  e.children.find? (fun c => c.tag == "attribute" && c.attrib.lookup "name" == some nm)

/-- `x.text.strip() if x is not None else ""` for `x = findAttrChild e nm`.
`none` models the `AttributeError` raised when the child exists but its
text is `None`. -/
def keyField (e : Elem) (nm : String) : Option String :=
  match findAttrChild e nm with
  | none => some ""
  | some a => a.text.map pstrip

/-- `create_event_entity_mapping_key`. -/
def create_event_entity_mapping_key (e : Elem) : Option (List String) :=
  (keyField e "sourcename").bind fun s =>
    (keyField e "destinationname").bind fun d =>
      (keyField e "mappingtypename").map fun m =>
        ["XDDEVENTITYMAPPING", s, d, m]

/-- `create_attribute_or_relationship_mapping_key` (parameterized by the
`type` value, which the Python code re-reads via `elem.get("type")`). -/
def create_attribute_or_relationship_mapping_key (t : String) (e : Elem) :
    Option (List String) :=
  (keyField e "name").map fun n => [t, n]

/-- `create_mapping_model_key`. -/
def create_mapping_model_key (e : Elem) : Option (List String) :=
  (keyField e "sourcemodelpath").map fun p => ["XDDEVMAPPINGMODEL", p]

/-- `get_object_key`: identity tuple of an `object` node (tuples become
`List String`; Python tuples of different lengths are never equal, and
neither are the corresponding lists).  `none` models a raise. -/
def get_object_key (e : Elem) : Option (List String) :=
  match e.attrib.lookup "type" with
  | some "XDDEVENTITYMAPPING" => create_event_entity_mapping_key e
  | some t =>
    if t == "XDDEVATTRIBUTEMAPPING" || t == "XDDEVRELATIONSHIPMAPPING" then
      create_attribute_or_relationship_mapping_key t e
    else if t == "XDDEVMAPPINGMODEL" then
      create_mapping_model_key e
    else some [e.tag]
  | none => some [e.tag]

/-- Python `str(key)` for a tuple of quote-free strings (the engine only
reaches this branch with the key `(elem.tag,)` of an unrecognized
`object`). -/
def pyStrTuple (key : List String) : String :=
  match key with
  | [s] => "(" ++ sQuote ++ s ++ sQuote ++ ",)"
  | _ => "(" ++ String.intercalate ", " (key.map (fun s => sQuote ++ s ++ sQuote)) ++ ")"

/-- `format_object_key`.  On key shapes that `get_object_key` cannot
produce (where Python would raise `IndexError`) we fall back to
`pyStrTuple`; the engine never reaches those shapes. -/
def format_object_key (key : List String) : String :=
  match key with
  | "XDDEVENTITYMAPPING" :: _ :: d :: m :: _ =>
    "destination name: " ++ d ++ ", mappingTypename: " ++ m
  | t :: n :: _ =>
    if t == "XDDEVATTRIBUTEMAPPING" || t == "XDDEVRELATIONSHIPMAPPING" then
      "name: " ++ n
    else if t == "XDDEVMAPPINGMODEL" then
      "sourcemodelpath: " ++ n
    else pyStrTuple key
  | _ => pyStrTuple key

/-- `format_event_entity_mapping` (may raise on a textless sub-field). -/
def format_event_entity_mapping (e : Elem) : Option String :=
  (keyField e "destinationname").bind fun d =>
    (keyField e "mappingtypename").map fun m =>
      "\x7b destination name: " ++ d ++ ", mappingTypename: " ++ m ++ " \x7d"

/-- `format_element`. -/
def format_element (e : Elem) : Option String :=
  if e.tag == "object" then
    if e.attrib.lookup "type" == some "XDDEVENTITYMAPPING" then
      format_event_entity_mapping e
    else
      (get_object_key e).map fun k => "[" ++ format_object_key k ++ "]"
  else
    let t := pstrip (e.text.getD "")
    some (if t ≠ "" then e.tag ++ ": " ++ sQuote ++ t ++ sQuote else e.tag)

/-- `get_element_value`. -/
def get_element_value (e : Elem) : String :=
  if e.children.isEmpty then pstrip (e.text.getD "") else ""

/-- The record emitted by `check_missing_nodes` for a one-sided node
(`oldPresent = true` for a missing node, `false` for an extra node). -/
def absent_record (oldPresent : Bool) (e : Elem) (path : String) : Option DRec :=
  (format_element e).map fun s =>
    let v := get_element_value e
    if oldPresent then
      ⟨TYPE_MISSING, CATEGORY_MISSING, path, some (some s), none,
        if v == "" then none else some v, none⟩
    else
      ⟨TYPE_EXTRA, CATEGORY_EXTRA, path, none, some (some s),
        if v == "" then none else some v, none⟩

/-- `compare_tags`. -/
def compare_tags (o n : Elem) (path : String) : List DRec :=
  if o.tag ≠ n.tag then
    [⟨TYPE_MISMATCH, CATEGORY_MISMATCH, path ++ " tag",
      some (some o.tag), some (some n.tag), none, some "tag"⟩]
  else []

/-- `compare_text`.  The skip guard inspects only the old element. -/
def compare_text (o n : Elem) (path : String) : List DRec :=
  if o.tag == "attribute" && o.attrib.lookup "name" == some "mappingnumber" then []
  else
    let text_old := pstrip (o.text.getD "")
    let text_new := pstrip (n.text.getD "")
    if text_old ≠ text_new then
      [⟨TYPE_MISMATCH, CATEGORY_MISMATCH, path ++ " text",
        some (some text_old), some (some text_new), none, some "text"⟩]
    else []

/-- First-occurrence deduplication (Python set-union iteration is in
unspecified order; we iterate first occurrences in list order). -/
def dedupL {α : Type} [BEq α] : List α → List α
  | [] => []
  | x :: r => x :: (dedupL r).filter (fun y => !(y == x))

/-- The record `compare_attributes` emits for one differing attribute. -/
def attr_record (o n : Elem) (path a : String) : DRec :=
  ⟨TYPE_MISMATCH, CATEGORY_MISMATCH,
    path ++ " attribute " ++ sQuote ++ a ++ sQuote,
    some (o.attrib.lookup a), some (n.attrib.lookup a), none, some "attribute"⟩

/-- `compare_attributes`.  Python iterates the union set of attribute
names in unspecified order; we fix old-side names first. -/
def compare_attributes (o n : Elem) (path : String) : List DRec :=
  let allAttrs := dedupL ((o.attrib ++ n.attrib).map Prod.fst)
  (allAttrs.filter (fun a => !IGNORED_ATTRIBUTES.contains a)).filterMap fun a =>
    if o.attrib.lookup a ≠ n.attrib.lookup a then some (attr_record o n path a)
    else none

/-- Python `set(a) == set(b)` for lists of strings. -/
def setEqL (a b : List String) : Bool :=
  a.all (b.contains ·) && b.all (a.contains ·)

/-- `handle_plist_keys`: the set-of-strings strategy for `key` children
of a plist dict. -/
def handle_plist_keys (old_list new_list : List Elem) (path tag : String) : List DRec :=
  let old_keys := old_list.map (fun c => pstrip (c.text.getD ""))
  let new_keys := new_list.map (fun c => pstrip (c.text.getD ""))
  if setEqL old_keys new_keys then []
  else
    let missing := old_keys.filter (fun k => !new_keys.contains k)
    let extra := new_keys.filter (fun k => !old_keys.contains k)
    match missing, extra with
    | [m], [x] =>
      [⟨TYPE_MISMATCH, CATEGORY_MISMATCH,
        path ++ "." ++ tag ++ "[" ++ toString (old_keys.indexOf m) ++ "] text",
        some (some m), some (some x), none, some "text"⟩]
    | missing, extra =>
      missing.map (fun k =>
        ⟨TYPE_MISSING, CATEGORY_MISSING,
          path ++ "." ++ tag ++ "[" ++ toString (old_keys.indexOf k) ++ "] text",
          some (some k), none, some k, none⟩)
      ++ extra.map (fun k =>
        ⟨TYPE_EXTRA, CATEGORY_EXTRA,
          path ++ "." ++ tag ++ "[" ++ toString (new_keys.indexOf k) ++ "] text",
          none, some (some k), some k, none⟩)

/-- `filter_children`: drop ignored `attribute` leaf markers. -/
def filter_children (children : List Elem) : List Elem :=
  children.filter fun c =>
    !(c.tag == "attribute" &&
      (match c.attrib.lookup "name" with
       | some nm => ["sourcemodeldata", "destinationmodeldata", "mappingnumber"].contains nm
       | none => false))

-- sanity checks (concrete evaluation)
example : pstrip "  a b\n" = "a b" := by decide
example : handle_plist_keys
    [elem "key" [] (some "K") [], elem "key" [] (some "M") []]
    [elem "key" [] (some "K") [], elem "key" [] (some "N") []] "p" "key"
    = [⟨TYPE_MISMATCH, CATEGORY_MISMATCH, "p.key[1] text",
        some (some "M"), some (some "N"), none, some "text"⟩] := by decide
example : get_object_key (elem "object" [("type", "XDDEVMAPPINGMODEL")] none
    [elem "attribute" [("name", "sourcemodelpath")] none []]) = none := by decide
example : get_object_key (elem "object" [("type", "XDDEVMAPPINGMODEL")] none
    [elem "attribute" [("name", "sourcemodelpath")] (some " P ") []])
    = some ["XDDEVMAPPINGMODEL", "P"] := by decide

/-- A child-comparison task produced by the dispatcher `diff_children`:
either records emitted directly, a raised exception, or a recursive
comparison of a matched pair at a sub-path. -/
inductive CTask : Type where
  | emit : List DRec → CTask
  | raise : CTask
  | cmp : Elem → Elem → String → CTask

/-- Derive the key of every element (the dict comprehensions in
`handle_object_nodes`); `none` if any derivation raises. -/
def keyedElems : List Elem → Option (List (List String × Elem))
  | [] => some []
  | c :: rest =>
    match get_object_key c, keyedElems rest with
    | some k, some kr => some ((k, c) :: kr)
    | _, _ => none

/-- Python dict lookup over the keyed list: the last binding of a key
wins (`{key: child for child in list}`). -/
def dictGet (kl : List (List String × Elem)) (k : List String) : Option Elem :=
  (kl.reverse.find? (fun kv => kv.1 == k)).map (·.2)

/-- The keys of the dict, first occurrence first. -/
def dictKeys (kl : List (List String × Elem)) : List (List String) :=
  dedupL (kl.map Prod.fst)

/-- One key's contribution in `handle_object_nodes`. -/
def objTask (kold knew : List (List String × Elem)) (path : String)
    (key : List String) : CTask :=
  match dictGet kold key, dictGet knew key with
  | some co, some cn =>
    CTask.cmp co cn (path ++ ".object[" ++ format_object_key key ++ "]")
  | some co, none =>
    match format_element co with
    | some s => CTask.emit
        [⟨TYPE_MISSING, CATEGORY_MISSING,
          path ++ ".object[" ++ format_object_key key ++ "]",
          some (some s), none, none, none⟩]
    | none => CTask.raise
  | none, some cn =>
    match format_element cn with
    | some s => CTask.emit
        [⟨TYPE_EXTRA, CATEGORY_EXTRA,
          path ++ ".object[" ++ format_object_key key ++ "]",
          none, some (some s), none, none⟩]
    | none => CTask.raise
  | none, none => CTask.emit []

/-- `handle_object_nodes` as a task list.  Python iterates
`set(dict_old).union(dict_new)` in unspecified order; we fix old keys
first, then new-only keys. -/
def planObjects (old_list new_list : List Elem) (path : String) : List CTask :=
  match keyedElems old_list, keyedElems new_list with
  | some kold, some knew =>
    (dictKeys kold ++ (dictKeys knew).filter (fun k => !(dictKeys kold).contains k)).map
      (objTask kold knew path)
  | _, _ => [CTask.raise]

/-- The sub-path used by `handle_default_children` at index `i`. -/
def defSubpath (path tag : String) (max_len i : Nat) : String :=
  if max_len == 1 then path ++ "." ++ tag
  else path ++ "." ++ tag ++ "[" ++ toString i ++ "]"

/-- One index's contribution in `handle_default_children`. -/
def defTask (old_list new_list : List Elem) (path tag : String)
    (max_len i : Nat) : CTask :=
  match old_list[i]?, new_list[i]? with
  | some co, some cn => CTask.cmp co cn (defSubpath path tag max_len i)
  | some co, none =>
    match absent_record true co (defSubpath path tag max_len i) with
    | some r => CTask.emit [r]
    | none => CTask.raise
  | none, some cn =>
    match absent_record false cn (defSubpath path tag max_len i) with
    | some r => CTask.emit [r]
    | none => CTask.raise
  | none, none => CTask.emit []

/-- `handle_default_children` as a task list. -/
def planDefault (old_list new_list : List Elem) (path tag : String) : List CTask :=
  let max_len := max old_list.length new_list.length
  (List.range max_len).map (defTask old_list new_list path tag max_len)

/-- Python `".plist.dict" in path`. -/
def containsPlistDict : List Char → Bool
  | '.' :: 'p' :: 'l' :: 'i' :: 's' :: 't' :: '.' :: 'd' :: 'i' :: 'c' :: 't' :: _ => true
  | _ :: rest => containsPlistDict rest
  | [] => false

/-- The tasks of one tag group: the strategy dispatch of
`diff_children`. -/
def tagTasks (oc nc : List Elem) (path tag : String) : List CTask :=
  if tag == "key" && containsPlistDict path.data then
    [CTask.emit (handle_plist_keys (oc.filter (fun c => c.tag == tag))
      (nc.filter (fun c => c.tag == tag)) path tag)]
  else if tag == "object" then
    planObjects (oc.filter (fun c => c.tag == tag))
      (nc.filter (fun c => c.tag == tag)) path
  else
    planDefault (oc.filter (fun c => c.tag == tag))
      (nc.filter (fun c => c.tag == tag)) path tag

/-- `diff_children`: filter ignored children, group by tag (Python
iterates the tag set in unspecified order; we fix old-side tags first),
and dispatch each group to a strategy. -/
def planChildren (old_children new_children : List Elem) (path : String) : List CTask :=
  ((dedupL (((filter_children old_children) ++ (filter_children new_children)).map Elem.tag)).map
    (tagTasks (filter_children old_children) (filter_children new_children) path)).flatten

/-- Sequence a list of optional values (`none` = a raise occurred). -/
def seqOption : List (Option α) → Option (List α)
  | [] => some []
  | none :: _ => none
  | some a :: rest => (seqOption rest).map (a :: ·)

/-- `diff_elements` on two present elements, totalized by fuel.  Fuel 0
returns `none`; the wrappers below always supply sufficient fuel
(`diffF_fuel_irrel` shows the value is then fuel-independent). -/
def diffF : Nat → Elem → Elem → String → Option (List DRec)
  | 0, _, _, _ => none
  | fuel + 1, o, n, path =>
    if o.tag ≠ n.tag then some (compare_tags o n path)
    else
      match seqOption ((planChildren o.children n.children path).map fun t =>
        match t with
        | CTask.emit rs => some rs
        | CTask.raise => none
        | CTask.cmp a b sp => diffF fuel a b sp) with
      | none => none
      | some ls =>
        some (compare_text o n path ++ compare_attributes o n path ++ ls.flatten)

/-- Evaluate one task at a given fuel. -/
def taskEvalF (fuel : Nat) : CTask → Option (List DRec)
  | CTask.emit rs => some rs
  | CTask.raise => none
  | CTask.cmp a b sp => diffF fuel a b sp

/-- Run a task list: concatenation of all task results, `none` if any
task raises. -/
def runTasksF (fuel : Nat) (ts : List CTask) : Option (List DRec) :=
  (seqOption (ts.map (taskEvalF fuel))).map List.flatten

theorem diffF_succ (fuel : Nat) (o n : Elem) (path : String) :
    diffF (fuel + 1) o n path =
      if o.tag ≠ n.tag then some (compare_tags o n path)
      else
        match runTasksF fuel (planChildren o.children n.children path) with
        | none => none
        | some l =>
          some (compare_text o n path ++ compare_attributes o n path ++ l) := by
  show (if o.tag ≠ n.tag then some (compare_tags o n path) else _) = _
  by_cases h : o.tag ≠ n.tag
  · simp [h]
  · simp only [if_neg h, runTasksF]
    have heq : ((planChildren o.children n.children path).map fun t =>
        match t with
        | CTask.emit rs => some rs
        | CTask.raise => none
        | CTask.cmp a b sp => diffF fuel a b sp) =
        (planChildren o.children n.children path).map (taskEvalF fuel) := by
      apply List.map_congr_left
      intro t _
      cases t <;> rfl
    rw [heq]
    cases seqOption ((planChildren o.children n.children path).map (taskEvalF fuel)) <;> rfl

/-- `diff_elements` including the `check_missing_nodes` boundary cases;
present-present pairs run the fueled comparator with sufficient fuel. -/
def diff_elements : Option Elem → Option Elem → String → Option (List DRec)
  | none, none, _ => some []
  | none, some n, path => (absent_record false n path).map (fun r => [r])
  | some o, none, path => (absent_record true o path).map (fun r => [r])
  | some o, some n, path => diffF (o.size + n.size) o n path

/-- `handle_object_nodes` as a standalone function (with sufficient
fuel for its recursive comparisons). -/
def handle_object_nodes (old_list new_list : List Elem) (path : String) :
    Option (List DRec) :=
  runTasksF (listSize old_list + listSize new_list) (planObjects old_list new_list path)

/-- Python `path.replace("object[", "object.\x7b")`: left-to-right,
non-overlapping. -/
def replaceObjBracket : List Char → List Char
  | 'o' :: 'b' :: 'j' :: 'e' :: 'c' :: 't' :: '[' :: rest =>
    'o' :: 'b' :: 'j' :: 'e' :: 'c' :: 't' :: '.' :: '\x7b' :: replaceObjBracket rest
  | c :: rest => c :: replaceObjBracket rest
  | [] => []

/-- Python `"object[" in path`. -/
def containsObjBracket : List Char → Bool
  | 'o' :: 'b' :: 'j' :: 'e' :: 'c' :: 't' :: '[' :: _ => true
  | _ :: rest => containsObjBracket rest
  | [] => false

/-- `normalize_path`. -/
def normalize_path (path : String) : String :=
  if containsObjBracket path.data then
    let q := replaceObjBracket path.data
    if q.getLast? == some ']' then String.mk (q.dropLast ++ ['\x7d'])
    else String.mk q
  else path

-- sanity checks
example : normalize_path "db.object[name: x]" = "db.object." ++ "\x7b" ++ "name: x" ++ "\x7d" := by decide
example : normalize_path "db.object[name: x].b text" = "db.object." ++ "\x7b" ++ "name: x].b text" := by decide
example : diff_elements (some (elem "a" [] (some "1") []))
    (some (elem "b" [] (some "1") [])) "p"
    = some [⟨TYPE_MISMATCH, CATEGORY_MISMATCH, "p tag",
        some (some "a"), some (some "b"), none, some "tag"⟩] := by decide
example : diff_elements
    (some (elem "root" [] none [elem "object" [("type", "XDDEVMAPPINGMODEL")] none
      [elem "attribute" [("name", "sourcemodelpath")] none []]]))
    (some (elem "root" [] none [elem "object" [("type", "XDDEVMAPPINGMODEL")] none
      [elem "attribute" [("name", "sourcemodelpath")] none []]])) "p" = none := by decide
example : diff_elements
    (some (elem "root" [] none [elem "object" [("type", "XDDEVMAPPINGMODEL")] none
      [elem "attribute" [("name", "sourcemodelpath")] (some "P") []]]))
    (some (elem "root" [] none [elem "object" [("type", "XDDEVMAPPINGMODEL")] none
      [elem "attribute" [("name", "sourcemodelpath")] (some "P") []]])) "p" = some [] := by decide

theorem Elem.size_succ (o : Elem) : ∃ m, o.size = m + 1 := by
  cases o with
  | mk t a x c => exact ⟨c.size, rfl⟩

theorem diff_elements_present (o n : Elem) (path : String) :
    diff_elements (some o) (some n) path = diffF (o.size + n.size) o n path := rfl

/-- Claim C2, counterexample: key derivation is not total.  On an
`XDDEVMAPPINGMODEL` object whose `sourcemodelpath` attribute child is
present but textless, `get_object_key` raises (calls `.strip()` on
`None`), modelled as `none`. -/
theorem c2_cex :
    get_object_key (elem "object" [("type", "XDDEVMAPPINGMODEL")] none
      [elem "attribute" [("name", "sourcemodelpath")] none []]) = none := by decide

theorem keyField_isSome (e : Elem)
    (h : ∀ a ∈ e.children, a.tag = "attribute" → a.text.isSome) (nm : String) :
    (keyField e nm).isSome := by
  unfold keyField
  cases hf : findAttrChild e nm with
  | none => rfl
  | some a =>
    have hmem := List.mem_of_find?_eq_some hf
    have hpred := List.find?_some hf
    have htag : a.tag = "attribute" := by
      have := (Bool.and_eq_true _ _).mp hpred |>.1
      exact eq_of_beq this
    have := h a hmem htag
    cases ht : a.text with
    | none => rw [ht] at this; simp at this
    | some s => simp [ht]

theorem get_object_key_isSome (e : Elem)
    (h : ∀ a ∈ e.children, a.tag = "attribute" → a.text.isSome) :
    (get_object_key e).isSome := by
  have hk := keyField_isSome e h
  unfold get_object_key create_event_entity_mapping_key
    create_attribute_or_relationship_mapping_key create_mapping_model_key
  cases e.attrib.lookup "type" with
  | none => simp
  | some t =>
    by_cases h1 : t = "XDDEVENTITYMAPPING"
    · subst h1
      simp only []
      obtain ⟨s1, hs1⟩ := Option.isSome_iff_exists.mp (hk "sourcename")
      obtain ⟨s2, hs2⟩ := Option.isSome_iff_exists.mp (hk "destinationname")
      obtain ⟨s3, hs3⟩ := Option.isSome_iff_exists.mp (hk "mappingtypename")
      simp [hs1, hs2, hs3]
    · rcases t with ⟨tl⟩
      by_cases h2 : (⟨tl⟩ : String) == "XDDEVATTRIBUTEMAPPING" || (⟨tl⟩ : String) == "XDDEVRELATIONSHIPMAPPING"
      · obtain ⟨s1, hs1⟩ := Option.isSome_iff_exists.mp (hk "name")
        simp only [h1]
        by_cases h3 : tl = "XDDEVENTITYMAPPING".data
        · exact absurd (by apply String.ext; exact h3) h1
        · simp [h2, hs1, h3]
      · by_cases h3 : tl = "XDDEVENTITYMAPPING".data
        · exact absurd (by apply String.ext; exact h3) h1
        · by_cases h4 : (⟨tl⟩ : String) == "XDDEVMAPPINGMODEL"
          · obtain ⟨s1, hs1⟩ := Option.isSome_iff_exists.mp (hk "sourcemodelpath")
            simp [h2, h3, h4, hs1]
          · simp [h2, h3, h4]

/-- Claim C2 (amended): key derivation returns an identity tuple for
every node whose `attribute`-tagged children carry text; a named
sub-field that is absent contributes an empty-string component.  (As
stated the claim is false: a present but textless sub-field makes the
derivation raise, see `c2_cex`.) -/
theorem c2_thm (e : Elem)
    (h : ∀ a ∈ e.children, a.tag = "attribute" → a.text.isSome) :
    (get_object_key e).isSome ∧
      ∀ nm, findAttrChild e nm = none → keyField e nm = some "" := by
  refine ⟨get_object_key_isSome e h, ?_⟩
  intro nm hf
  unfold keyField
  rw [hf]

/-- Witness for `c2_thm`. -/
theorem c2_wit :
    (∀ a ∈ (elem "object" [("type", "XDDEVMAPPINGMODEL")] none
        [elem "attribute" [("name", "sourcemodelpath")] (some "P") []]).children,
      a.tag = "attribute" → a.text.isSome) ∧
    ((get_object_key (elem "object" [("type", "XDDEVMAPPINGMODEL")] none
        [elem "attribute" [("name", "sourcemodelpath")] (some "P") []])).isSome ∧
      ∀ nm, findAttrChild (elem "object" [("type", "XDDEVMAPPINGMODEL")] none
        [elem "attribute" [("name", "sourcemodelpath")] (some "P") []]) nm = none →
        keyField (elem "object" [("type", "XDDEVMAPPINGMODEL")] none
        [elem "attribute" [("name", "sourcemodelpath")] (some "P") []]) nm = some "") :=
  ⟨by decide, c2_thm _ (by decide)⟩

/-- Claim C7 (confirmed): if both nodes are present and their tags
differ, the comparison emits exactly one Mismatch record of subtype
`tag` carrying the two tag names, and nothing else — no text,
attribute, or child records for this subtree. -/
theorem c7_thm (o n : Elem) (path : String) (h : o.tag ≠ n.tag) :
    diff_elements (some o) (some n) path =
      some [⟨TYPE_MISMATCH, CATEGORY_MISMATCH, path ++ " tag",
        some (some o.tag), some (some n.tag), none, some "tag"⟩] := by
  rw [diff_elements_present]
  obtain ⟨m, hm⟩ := Elem.size_succ o
  have : o.size + n.size = (m + n.size) + 1 := by omega
  rw [this, diffF_succ, if_pos h, compare_tags, if_pos h]

/-- Witness for `c7_thm`. -/
theorem c7_wit :
    (elem "a" [] (some "1") []).tag ≠ (elem "b" [] (some "1") []).tag ∧
    diff_elements (some (elem "a" [] (some "1") [])) (some (elem "b" [] (some "1") [])) "p" =
      some [⟨TYPE_MISMATCH, CATEGORY_MISMATCH, "p tag",
        some (some "a"), some (some "b"), none, some "tag"⟩] :=
  ⟨by decide, c7_thm _ _ _ (by decide)⟩

theorem handle_plist_keys_def (old_list new_list : List Elem) (path tag : String) :
    handle_plist_keys old_list new_list path tag =
      (if setEqL (old_list.map fun c => pstrip (c.text.getD ""))
          (new_list.map fun c => pstrip (c.text.getD "")) then []
      else
        match (old_list.map fun c => pstrip (c.text.getD "")).filter
            (fun k => !(new_list.map fun c => pstrip (c.text.getD "")).contains k),
          (new_list.map fun c => pstrip (c.text.getD "")).filter
            (fun k => !(old_list.map fun c => pstrip (c.text.getD "")).contains k) with
        | [m], [x] =>
          [⟨TYPE_MISMATCH, CATEGORY_MISMATCH,
            path ++ "." ++ tag ++ "[" ++
              toString ((old_list.map fun c => pstrip (c.text.getD "")).indexOf m) ++ "] text",
            some (some m), some (some x), none, some "text"⟩]
        | missing, extra =>
          missing.map (fun k =>
            ⟨TYPE_MISSING, CATEGORY_MISSING,
              path ++ "." ++ tag ++ "[" ++
                toString ((old_list.map fun c => pstrip (c.text.getD "")).indexOf k) ++ "] text",
              some (some k), none, some k, none⟩)
          ++ extra.map (fun k =>
            ⟨TYPE_EXTRA, CATEGORY_EXTRA,
              path ++ "." ++ tag ++ "[" ++
                toString ((new_list.map fun c => pstrip (c.text.getD "")).indexOf k) ++ "] text",
              none, some (some k), some k, none⟩)) := rfl

/-- Claim C1, counterexample: the strategy compares Python sets, not
multisets.  The trimmed-text multisets `[a, a]` and `[a]` differ, yet
`handle_plist_keys` emits no record. -/
theorem c1_cex :
    ¬ (([elem "key" [] (some "a") [], elem "key" [] (some "a") []].map
          fun c => pstrip (c.text.getD "")).Perm
        ([elem "key" [] (some "a") []].map fun c => pstrip (c.text.getD ""))) ∧
    handle_plist_keys
      [elem "key" [] (some "a") [], elem "key" [] (some "a") []]
      [elem "key" [] (some "a") []] "x.plist.dict" "key" = [] := by
  constructor
  · decide
  · decide

/-- Claim C1 (amended): the set-of-strings strategy treats each side's
children as a Python set (not multiset) of trimmed text values:
`handle_plist_keys` returns no records precisely when the two sets of
trimmed texts are equal. -/
theorem c1_thm (old_list new_list : List Elem) (path tag : String) :
    handle_plist_keys old_list new_list path tag = [] ↔
      setEqL (old_list.map fun c => pstrip (c.text.getD ""))
        (new_list.map fun c => pstrip (c.text.getD "")) = true := by
  rw [handle_plist_keys_def]
  set old_keys := old_list.map fun c => pstrip (c.text.getD "") with hok
  set new_keys := new_list.map fun c => pstrip (c.text.getD "") with hnk
  by_cases hs : setEqL old_keys new_keys
  · simp [hs]
  · have hs' : setEqL old_keys new_keys = false := by
      exact Bool.not_eq_true _ ▸ (by simpa using hs)
    rw [if_neg hs, hs']
    simp only [Bool.false_eq_true, iff_false]
    have hne : old_keys.filter (fun k => !new_keys.contains k) ≠ [] ∨
        new_keys.filter (fun k => !old_keys.contains k) ≠ [] := by
      unfold setEqL at hs'
      rcases Bool.and_eq_false_iff.mp hs' with h | h
      · left
        rw [List.all_eq_false] at h
        obtain ⟨k, hk, hnk2⟩ := h
        intro hcon
        have h2 := List.filter_eq_nil_iff.mp hcon k hk
        simp only [Bool.not_eq_true', Bool.not_eq_false] at h2
        rw [h2] at hnk2
        exact hnk2 rfl
      · right
        rw [List.all_eq_false] at h
        obtain ⟨k, hk, hnk2⟩ := h
        intro hcon
        have h2 := List.filter_eq_nil_iff.mp hcon k hk
        simp only [Bool.not_eq_true', Bool.not_eq_false] at h2
        rw [h2] at hnk2
        exact hnk2 rfl
    cases hmiss : old_keys.filter (fun k => !new_keys.contains k) with
    | nil =>
      cases hext : new_keys.filter (fun k => !old_keys.contains k) with
      | nil => rw [hmiss, hext] at hne; simp at hne
      | cons x xs =>
        cases xs with
        | nil => simp
        | cons y ys => simp
    | cons m ms =>
      cases ms with
      | nil =>
        cases hext : new_keys.filter (fun k => !old_keys.contains k) with
        | nil => simp
        | cons x xs =>
          cases xs with
          | nil => simp
          | cons y ys => simp
      | cons m2 ms2 => simp

/-- Claim C4 (confirmed): when among the trimmed key texts exactly one
value is removed and exactly one added, `handle_plist_keys` emits
exactly one Mismatch of subtype `text`, located at the removed value's
index in the old key list, with the removed value as old and the added
value as new — and no MissingNode or ExtraNode records. -/
theorem c4_thm (old_list new_list : List Elem) (path tag m x : String)
    (hm : (old_list.map fun c => pstrip (c.text.getD "")).filter
        (fun k => !(new_list.map fun c => pstrip (c.text.getD "")).contains k) = [m])
    (hx : (new_list.map fun c => pstrip (c.text.getD "")).filter
        (fun k => !(old_list.map fun c => pstrip (c.text.getD "")).contains k) = [x]) :
    handle_plist_keys old_list new_list path tag =
      [⟨TYPE_MISMATCH, CATEGORY_MISMATCH,
        path ++ "." ++ tag ++ "[" ++
          toString ((old_list.map fun c => pstrip (c.text.getD "")).indexOf m) ++ "] text",
        some (some m), some (some x), none, some "text"⟩] := by
  rw [handle_plist_keys_def]
  set old_keys := old_list.map fun c => pstrip (c.text.getD "") with hok
  set new_keys := new_list.map fun c => pstrip (c.text.getD "") with hnk
  have hmem : m ∈ old_keys.filter (fun k => !new_keys.contains k) := by rw [hm]; simp
  have hsne : setEqL old_keys new_keys = false := by
    rw [List.mem_filter] at hmem
    unfold setEqL
    simp only [Bool.and_eq_false_iff, List.all_eq_false]
    left
    exact ⟨m, hmem.1, by simpa using hmem.2⟩
  rw [if_neg (by simp [hsne]), hm, hx]

/-- Witness for `c4_thm` (old keys `[K, M]`, new keys `[K, N]` give one
Mismatch at index 1 with old `M`, new `N`). -/
theorem c4_wit :
    (([elem "key" [] (some "K") [], elem "key" [] (some "M") []].map
        fun c => pstrip (c.text.getD "")).filter
      (fun k => !([elem "key" [] (some "K") [], elem "key" [] (some "N") []].map
        fun c => pstrip (c.text.getD "")).contains k) = ["M"]) ∧
    handle_plist_keys
      [elem "key" [] (some "K") [], elem "key" [] (some "M") []]
      [elem "key" [] (some "K") [], elem "key" [] (some "N") []] "p" "key" =
      [⟨TYPE_MISMATCH, CATEGORY_MISMATCH, "p.key[1] text",
        some (some "M"), some (some "N"), none, some "text"⟩] := by
  refine ⟨by decide, ?_⟩
  have := c4_thm
    [elem "key" [] (some "K") [], elem "key" [] (some "M") []]
    [elem "key" [] (some "K") [], elem "key" [] (some "N") []] "p" "key" "M" "N"
    (by decide) (by decide)
  simpa using this

theorem containsObjBracket_tail {x : Char} {l : List Char}
    (h : containsObjBracket (x :: l) = false) : containsObjBracket l = false := by
  rw [containsObjBracket.eq_def] at h
  split at h
  · exact absurd h (by simp)
  · rename_i heq
    injection heq with h1 h2
    rw [h2]
    exact h
  · rename_i heq
    exact absurd heq (by simp)

theorem containsObjBracket_append_right (xs : List Char) {ys : List Char}
    (h : containsObjBracket ys = true) : containsObjBracket (xs ++ ys) = true := by
  induction xs with
  | nil => simpa
  | cons x xs ih =>
    rw [List.cons_append, containsObjBracket.eq_def]
    split
    · rfl
    · rename_i heq
      injection heq with h1 h2
      rw [← h2]
      exact ih
    · rename_i heq
      exact absurd heq (by simp)

theorem replaceObjBracket_append :
    ∀ (xs : List Char) (c : Char) (ys : List Char),
      containsObjBracket xs = false →
      c ∉ (['b', 'j', 'e', 'c', 't', '['] : List Char) →
      replaceObjBracket (xs ++ c :: ys) = xs ++ replaceObjBracket (c :: ys)
  | [], c, ys, _, _ => rfl
  | x0 :: xs, c, ys, h, hc => by
    rw [List.cons_append, replaceObjBracket.eq_def]
    split
    · rename_i rest heq
      -- the pattern fires across the boundary or inside `x0 :: xs`: contradiction
      injection heq with e0 heq
      subst e0
      match xs, heq with
      | [], heq => injection heq with e1 _; exact absurd (by rw [e1]; simp) hc
      | [_], heq =>
        injection heq with e1 heq; injection heq with e2 _
        exact absurd (by rw [e2]; simp) hc
      | [_, _], heq =>
        injection heq with e1 heq; injection heq with e2 heq; injection heq with e3 _
        exact absurd (by rw [e3]; simp) hc
      | [_, _, _], heq =>
        injection heq with e1 heq; injection heq with e2 heq; injection heq with e3 heq
        injection heq with e4 _
        exact absurd (by rw [e4]; simp) hc
      | [_, _, _, _], heq =>
        injection heq with e1 heq; injection heq with e2 heq; injection heq with e3 heq
        injection heq with e4 heq; injection heq with e5 _
        exact absurd (by rw [e5]; simp) hc
      | [_, _, _, _, _], heq =>
        injection heq with e1 heq; injection heq with e2 heq; injection heq with e3 heq
        injection heq with e4 heq; injection heq with e5 heq; injection heq with e6 _
        exact absurd (by rw [e6]; simp) hc
      | y1 :: y2 :: y3 :: y4 :: y5 :: y6 :: rest2, heq =>
        injection heq with e1 heq; injection heq with e2 heq; injection heq with e3 heq
        injection heq with e4 heq; injection heq with e5 heq; injection heq with e6 _
        subst e1; subst e2; subst e3; subst e4; subst e5; subst e6
        simp [containsObjBracket] at h
    · rename_i c1 rest1 heq
      injection heq with e1 e2
      subst e1
      rw [← e2, List.cons_append]
      congr 1
      exact replaceObjBracket_append xs c ys (containsObjBracket_tail h) hc
    · rename_i heq
      exact absurd heq (by simp)

/-- Claim C9, counterexample: `normalize_path` does not replace the
matching closing bracket of an inner `object[...]` segment; it only
rewrites the final character when the whole path ends with `]`.  On
`a.object[k].b text` the expected brace form is not produced. -/
theorem c9_cex :
    normalize_path "a.object[k].b text" = "a.object." ++ "\x7b" ++ "k].b text" ∧
    normalize_path "a.object[k].b text" ≠
      "a.object." ++ "\x7b" ++ "k" ++ "\x7d" ++ ".b text" := by
  constructor
  · decide
  · decide

/-- Claim C9 (amended): for a path consisting of a bracket-segment-free
prefix followed by a final key-based segment `object[<desc>]` (with the
description itself free of nested `object[`), `normalize_path` rewrites
the opening `object[` to `object.\x7b` and the final `]` to `\x7d`.
When the bracketed segment is not final, only the opening bracket is
rewritten (see `c9_cex`).  `normalize_path` is used only by the report
printer and by no comparison function. -/
theorem c9_thm (p k : String)
    (hp : containsObjBracket p.data = false)
    (hk : containsObjBracket k.data = false) :
    normalize_path (p ++ ".object[" ++ k ++ "]") =
      p ++ ".object." ++ "\x7b" ++ k ++ "\x7d" := by
  have hdata : (p ++ ".object[" ++ k ++ "]").data =
      p.data ++ '.' :: 'o' :: 'b' :: 'j' :: 'e' :: 'c' :: 't' :: '[' :: (k.data ++ [']']) := by
    simp [String.data_append]
  have hcontains : containsObjBracket (p ++ ".object[" ++ k ++ "]").data = true := by
    rw [hdata]
    exact containsObjBracket_append_right p.data rfl
  have hrepl : replaceObjBracket (p ++ ".object[" ++ k ++ "]").data =
      p.data ++ '.' :: 'o' :: 'b' :: 'j' :: 'e' :: 'c' :: 't' :: '.' :: '\x7b' :: (k.data ++ [']']) := by
    rw [hdata]
    rw [replaceObjBracket_append p.data '.' _ hp (by decide)]
    have h1 : replaceObjBracket ('.' :: 'o' :: 'b' :: 'j' :: 'e' :: 'c' :: 't' :: '[' :: (k.data ++ [']'])) =
        '.' :: 'o' :: 'b' :: 'j' :: 'e' :: 'c' :: 't' :: '.' :: '\x7b' :: replaceObjBracket (k.data ++ [']']) := rfl
    rw [h1, replaceObjBracket_append k.data ']' [] hk (by decide)]
    rfl
  unfold normalize_path
  rw [hcontains, hrepl]
  simp only [if_true]
  have hassoc : p.data ++ '.' :: 'o' :: 'b' :: 'j' :: 'e' :: 'c' :: 't' :: '.' :: '\x7b' :: (k.data ++ [']']) =
      (p.data ++ '.' :: 'o' :: 'b' :: 'j' :: 'e' :: 'c' :: 't' :: '.' :: '\x7b' :: k.data) ++ [']'] := by
    simp
  rw [hassoc, List.getLast?_concat, List.dropLast_concat]
  have : (some ']' == some ']') = true := by decide
  rw [this]
  simp only [if_true]
  apply String.ext
  simp [String.data_append]

/-- Witness for `c9_thm`. -/
theorem c9_wit :
    containsObjBracket ("db" : String).data = false ∧
    containsObjBracket ("name: x" : String).data = false ∧
    normalize_path ("db" ++ ".object[" ++ "name: x" ++ "]") =
      "db" ++ ".object." ++ "\x7b" ++ "name: x" ++ "\x7d" :=
  ⟨by decide, by decide, c9_thm "db" "name: x" (by decide) (by decide)⟩

theorem seqOption_eq_none_iff {α : Type} (l : List (Option α)) :
    seqOption l = none ↔ none ∈ l := by
  induction l with
  | nil => simp [seqOption]
  | cons x rest ih =>
    cases x with
    | none => simp [seqOption]
    | some a =>
      simp only [seqOption, List.mem_cons]
      cases h : seqOption rest with
      | none => simp [ih.mp h]
      | some ls =>
        simp only [Option.map_some']
        constructor
        · intro hcon; exact absurd hcon (by simp)
        · intro hmem
          rcases hmem with h1 | h2
          · exact absurd h1 (by simp)
          · rw [← ih] at h2; rw [h2] at h; exact absurd h (by simp)

theorem seqOption_mem {α : Type} {l : List (Option α)} {ls : List α}
    (h : seqOption l = some ls) {a : α} :
    a ∈ ls ↔ some a ∈ l := by
  induction l generalizing ls with
  | nil =>
    simp only [seqOption] at h
    injection h with h
    subst h; simp
  | cons x rest ih =>
    cases x with
    | none => simp [seqOption] at h
    | some b =>
      simp only [seqOption] at h
      cases hr : seqOption rest with
      | none => rw [hr] at h; simp at h
      | some ls' =>
        rw [hr] at h
        simp only [Option.map_some'] at h
        injection h with h
        subst h
        simp only [List.mem_cons, ih hr]
        constructor
        · rintro (h1 | h1)
          · left; rw [h1]
          · right; exact h1
        · rintro (h1 | h1)
          · left; injection h1
          · right; exact h1

theorem runTasksF_eq_none_iff (fuel : Nat) (ts : List CTask) :
    runTasksF fuel ts = none ↔ ∃ t ∈ ts, taskEvalF fuel t = none := by
  unfold runTasksF
  rw [Option.map_eq_none', seqOption_eq_none_iff]
  constructor
  · intro h
    obtain ⟨t, ht, hnone⟩ := List.mem_map.mp h
    exact ⟨t, ht, hnone⟩
  · rintro ⟨t, ht, hnone⟩
    exact List.mem_map.mpr ⟨t, ht, hnone⟩

theorem runTasksF_eq_some (fuel : Nat) (ts : List CTask) {l : List DRec}
    (h : runTasksF fuel ts = some l) (r : DRec) :
    r ∈ l ↔ ∃ t ∈ ts, ∃ u, taskEvalF fuel t = some u ∧ r ∈ u := by
  unfold runTasksF at h
  cases hs : seqOption (ts.map (taskEvalF fuel)) with
  | none => rw [hs] at h; simp at h
  | some ls =>
    rw [hs] at h
    simp only [Option.map_some'] at h
    injection h with h
    subst h
    rw [List.mem_flatten]
    constructor
    · rintro ⟨u, hu, hr⟩
      have := (seqOption_mem hs).mp hu
      obtain ⟨t, ht, heval⟩ := List.mem_map.mp this
      exact ⟨t, ht, u, heval, hr⟩
    · rintro ⟨t, ht, u, heval, hr⟩
      refine ⟨u, ?_, hr⟩
      exact (seqOption_mem hs).mpr (List.mem_map.mpr ⟨t, ht, heval⟩)

theorem keyedElems_mem {l : List Elem} {kl : List (List String × Elem)}
    (h : keyedElems l = some kl) :
    ∀ kv ∈ kl, kv.2 ∈ l ∧ get_object_key kv.2 = some kv.1 := by
  induction l generalizing kl with
  | nil =>
    simp only [keyedElems] at h
    injection h with h
    subst h
    intro kv hkv
    simp at hkv
  | cons c rest ih =>
    simp only [keyedElems] at h
    cases hk : get_object_key c with
    | none => rw [hk] at h; simp at h
    | some k =>
      rw [hk] at h
      cases hr : keyedElems rest with
      | none => rw [hr] at h; simp at h
      | some kr =>
        rw [hr] at h
        injection h with h
        subst h
        intro kv hkv
        rcases List.mem_cons.mp hkv with h1 | h1
        · subst h1; exact ⟨List.mem_cons_self _ _, hk⟩
        · obtain ⟨hm, hg⟩ := ih hr kv h1
          exact ⟨List.mem_cons_of_mem _ hm, hg⟩

theorem dictGet_mem {kl : List (List String × Elem)} {k : List String} {e : Elem}
    (h : dictGet kl k = some e) : ∃ k', (k', e) ∈ kl := by
  unfold dictGet at h
  cases hf : kl.reverse.find? (fun kv => kv.1 == k) with
  | none => rw [hf] at h; simp at h
  | some kv =>
    rw [hf] at h
    simp only [Option.map_some'] at h
    injection h with h
    have hmem := List.mem_of_find?_eq_some hf
    rw [List.mem_reverse] at hmem
    exact ⟨kv.1, by rw [← h]; exact (by rwa [← Prod.mk.eta (p := kv)] at hmem)⟩

theorem filter_children_subset {l : List Elem} {a : Elem}
    (h : a ∈ filter_children l) : a ∈ l := List.mem_of_mem_filter h

theorem planObjects_cmp_mem {ol nl : List Elem} {p : String} {a b : Elem} {sp : String}
    (h : CTask.cmp a b sp ∈ planObjects ol nl p) : a ∈ ol ∧ b ∈ nl := by
  unfold planObjects at h
  cases hko : keyedElems ol with
  | none => rw [hko] at h; simp at h
  | some kold =>
    cases hkn : keyedElems nl with
    | none => rw [hko, hkn] at h; simp at h
    | some knew =>
      rw [hko, hkn] at h
      obtain ⟨key, _, htask⟩ := List.mem_map.mp h
      unfold objTask at htask
      cases ho : dictGet kold key with
      | none =>
        cases hn : dictGet knew key with
        | none => rw [ho, hn] at htask; simp at htask
        | some cn =>
          rw [ho, hn] at htask
          cases hf : format_element cn with
          | none => simp [hf] at htask
          | some s => simp [hf] at htask
      | some co =>
        cases hn : dictGet knew key with
        | none =>
          rw [ho, hn] at htask
          cases hf : format_element co with
          | none => simp [hf] at htask
          | some s => simp [hf] at htask
        | some cn =>
          rw [ho, hn] at htask
          injection htask with e1 e2 e3
          subst e1; subst e2
          obtain ⟨k1, hm1⟩ := dictGet_mem ho
          obtain ⟨k2, hm2⟩ := dictGet_mem hn
          exact ⟨(keyedElems_mem hko _ hm1).1, (keyedElems_mem hkn _ hm2).1⟩

theorem planDefault_cmp_mem {ol nl : List Elem} {p t : String} {a b : Elem} {sp : String}
    (h : CTask.cmp a b sp ∈ planDefault ol nl p t) : a ∈ ol ∧ b ∈ nl := by
  unfold planDefault at h
  obtain ⟨i, _, htask⟩ := List.mem_map.mp h
  unfold defTask at htask
  cases ho : ol[i]? with
  | none =>
    cases hn : nl[i]? with
    | none => rw [ho, hn] at htask; simp at htask
    | some cn =>
      rw [ho, hn] at htask
      cases hf : absent_record false cn (defSubpath p t (max ol.length nl.length) i) with
      | none => simp [hf] at htask
      | some s => simp [hf] at htask
  | some co =>
    cases hn : nl[i]? with
    | none =>
      rw [ho, hn] at htask
      cases hf : absent_record true co (defSubpath p t (max ol.length nl.length) i) with
      | none => simp [hf] at htask
      | some s => simp [hf] at htask
    | some cn =>
      rw [ho, hn] at htask
      injection htask with e1 e2 e3
      subst e1; subst e2
      exact ⟨List.getElem?_mem ho, List.getElem?_mem hn⟩

theorem planChildren_cmp_mem_filtered {oc nc : List Elem} {p : String} {a b : Elem}
    {sp : String} (h : CTask.cmp a b sp ∈ planChildren oc nc p) :
    a ∈ filter_children oc ∧ b ∈ filter_children nc := by
  unfold planChildren at h
  rw [List.mem_flatten] at h
  obtain ⟨group, hg, hmem⟩ := h
  obtain ⟨tag, _, hbody⟩ := List.mem_map.mp hg
  subst hbody
  unfold tagTasks at hmem
  by_cases h1 : (tag == "key" && containsPlistDict p.data) = true
  · rw [if_pos h1] at hmem
    simp at hmem
  · rw [if_neg h1] at hmem
    by_cases h2 : (tag == "object") = true
    · rw [if_pos h2] at hmem
      obtain ⟨ha, hb⟩ := planObjects_cmp_mem hmem
      exact ⟨List.mem_of_mem_filter ha, List.mem_of_mem_filter hb⟩
    · rw [if_neg h2] at hmem
      obtain ⟨ha, hb⟩ := planDefault_cmp_mem hmem
      exact ⟨List.mem_of_mem_filter ha, List.mem_of_mem_filter hb⟩

theorem planChildren_cmp_mem {oc nc : List Elem} {p : String} {a b : Elem} {sp : String}
    (h : CTask.cmp a b sp ∈ planChildren oc nc p) : a ∈ oc ∧ b ∈ nc :=
  ⟨filter_children_subset (planChildren_cmp_mem_filtered h).1,
    filter_children_subset (planChildren_cmp_mem_filtered h).2⟩

theorem planChildren_cmp_size {o n : Elem} {p : String} {a b : Elem} {sp : String}
    (h : CTask.cmp a b sp ∈ planChildren o.children n.children p) :
    a.size + b.size + 2 ≤ o.size + n.size := by
  obtain ⟨ha, hb⟩ := planChildren_cmp_mem h
  have h1 := Elem.size_lt_of_mem_children ha
  have h2 := Elem.size_lt_of_mem_children hb
  omega

/-- With fuel at least the combined size of the two nodes, the fueled
comparator is fuel-independent; i.e. the totalization is faithful. -/
theorem diffF_fuel_irrel :
    ∀ (f1 f2 : Nat) (o n : Elem) (p : String),
      o.size + n.size ≤ f1 → o.size + n.size ≤ f2 →
      diffF f1 o n p = diffF f2 o n p := by
  intro f1
  induction f1 with
  | zero =>
    intro f2 o n p h1 h2
    have := Elem.size_pos o
    omega
  | succ fz ih =>
    intro f2 o n p h1 h2
    obtain ⟨f2', rfl⟩ : ∃ f2', f2 = f2' + 1 :=
      ⟨f2 - 1, by have := Elem.size_pos o; omega⟩
    rw [diffF_succ, diffF_succ]
    by_cases htag : o.tag ≠ n.tag
    · simp [htag]
    · simp only [if_neg htag]
      have hrun : runTasksF fz (planChildren o.children n.children p) =
          runTasksF f2' (planChildren o.children n.children p) := by
        unfold runTasksF
        have hmap : (planChildren o.children n.children p).map (taskEvalF fz) =
            (planChildren o.children n.children p).map (taskEvalF f2') := by
          apply List.map_congr_left
          intro t ht
          cases t with
          | emit rs => rfl
          | raise => rfl
          | cmp a b sp =>
            have hsz := planChildren_cmp_size ht
            exact ih f2' a b sp (by omega) (by omega)
        rw [hmap]
      rw [hrun]

mutual
/-- Every `attribute`-tagged element in this subtree carries text (the
condition under which no key derivation or formatting can raise). -/
def Elem.textOK : Elem → Bool
  | .mk t _ x c => (!(t == "attribute") || x.isSome) && c.textOKL

/-- `Elem.textOK` over a child list. -/
def ElemList.textOKL : ElemList → Bool
  | .nil => true
  | .cons e r => e.textOK && r.textOKL
end

/-- `Elem.textOK` over an ordinary list. -/
def textOKAll (l : List Elem) : Bool := l.all Elem.textOK

/-- Attribute lists with equal names in equal positions whose values
agree except possibly at ignored attribute names. -/
def attrsIgnEq : List (String × String) → List (String × String) → Bool
  | [], [] => true
  | (n1, v1) :: r1, (n2, v2) :: r2 =>
    n1 == n2 && (IGNORED_ATTRIBUTES.contains n1 || v1 == v2) && attrsIgnEq r1 r2
  | _, _ => false

mutual
/-- Trees equal except possibly in the values of ignored attributes. -/
def Elem.ignEq : Elem → Elem → Bool
  | .mk t1 a1 x1 c1, .mk t2 a2 x2 c2 =>
    t1 == t2 && attrsIgnEq a1 a2 && x1 == x2 && c1.ignEqL c2

/-- `Elem.ignEq` over child lists. -/
def ElemList.ignEqL : ElemList → ElemList → Bool
  | .nil, .nil => true
  | .cons e1 r1, .cons e2 r2 => e1.ignEq e2 && r1.ignEqL r2
  | _, _ => false
end

theorem attrsIgnEq_refl : ∀ a, attrsIgnEq a a = true
  | [] => rfl
  | (n, v) :: r => by simp [attrsIgnEq, attrsIgnEq_refl r]

mutual
theorem Elem.ignEq_refl : ∀ e : Elem, e.ignEq e = true
  | .mk t a x c => by
    simp [Elem.ignEq, attrsIgnEq_refl, ElemList.ignEqL_refl c]

theorem ElemList.ignEqL_refl : ∀ c : ElemList, c.ignEqL c = true
  | .nil => rfl
  | .cons e r => by
    simp only [ElemList.ignEqL, Bool.and_eq_true]
    exact ⟨Elem.ignEq_refl e, ElemList.ignEqL_refl r⟩
end

theorem ElemList.ignEqL_forall2 : ∀ (c1 c2 : ElemList), c1.ignEqL c2 = true →
    List.Forall₂ (fun a b => a.ignEq b = true) c1.toList c2.toList
  | .nil, .nil, _ => List.Forall₂.nil
  | .nil, .cons _ _, h => by simp [ElemList.ignEqL] at h
  | .cons _ _, .nil, h => by simp [ElemList.ignEqL] at h
  | .cons e1 r1, .cons e2 r2, h => by
    simp only [ElemList.ignEqL, Bool.and_eq_true] at h
    exact List.Forall₂.cons h.1 (ElemList.ignEqL_forall2 r1 r2 h.2)

theorem Elem.ignEq_destruct {e1 e2 : Elem} (h : e1.ignEq e2 = true) :
    e1.tag = e2.tag ∧ attrsIgnEq e1.attrib e2.attrib = true ∧ e1.text = e2.text ∧
      List.Forall₂ (fun a b => a.ignEq b = true) e1.children e2.children := by
  cases e1 with
  | mk t1 a1 x1 c1 =>
    cases e2 with
    | mk t2 a2 x2 c2 =>
      simp only [Elem.ignEq, Bool.and_eq_true, beq_iff_eq] at h
      obtain ⟨⟨⟨ht, ha⟩, hx⟩, hc⟩ := h
      exact ⟨ht, ha, hx, ElemList.ignEqL_forall2 c1 c2 hc⟩

theorem attrsIgnEq_keys : ∀ {a1 a2 : List (String × String)},
    attrsIgnEq a1 a2 = true → a1.map Prod.fst = a2.map Prod.fst
  | [], [], _ => rfl
  | (n1, v1) :: r1, (n2, v2) :: r2, h => by
    simp only [attrsIgnEq, Bool.and_eq_true, beq_iff_eq] at h
    simp only [List.map_cons]
    exact congrArg₂ (· :: ·) h.1.1 (attrsIgnEq_keys h.2)
  | [], (_, _) :: _, h => by simp [attrsIgnEq] at h
  | (_, _) :: _, [], h => by simp [attrsIgnEq] at h

theorem attrsIgnEq_lookup : ∀ {a1 a2 : List (String × String)} {nm : String},
    attrsIgnEq a1 a2 = true → IGNORED_ATTRIBUTES.contains nm = false →
    a1.lookup nm = a2.lookup nm
  | [], [], nm, _, _ => rfl
  | (n1, v1) :: r1, (n2, v2) :: r2, nm, h, hnm => by
    simp only [attrsIgnEq, Bool.and_eq_true, beq_iff_eq] at h
    obtain ⟨⟨hn, hv⟩, hr⟩ := h
    subst hn
    by_cases he : nm = n1
    · subst he
      rcases Bool.or_eq_true _ _ |>.mp hv with h1 | h1
      · rw [h1] at hnm; exact absurd hnm (by simp)
      · simp only [List.lookup, beq_self_eq_true, if_true]
        rw [eq_of_beq h1]
    · have hne : (nm == n1) = false := by simp [he]
      simp only [List.lookup, hne]
      exact attrsIgnEq_lookup hr hnm
  | [], (_, _) :: _, _, h, _ => by simp [attrsIgnEq] at h
  | (_, _) :: _, [], _, h, _ => by simp [attrsIgnEq] at h

theorem find?_forall2 {α β : Type} {R : α → β → Prop} {p : α → Bool} {q : β → Bool}
    (hpq : ∀ a b, R a b → p a = q b) :
    ∀ {l1 : List α} {l2 : List β}, List.Forall₂ R l1 l2 →
      (l1.find? p = none ∧ l2.find? q = none) ∨
      (∃ a b, l1.find? p = some a ∧ l2.find? q = some b ∧ R a b) := by
  intro l1 l2 h
  induction h with
  | nil => left; simp
  | cons hr hrest ih =>
    rename_i a b r1 r2
    by_cases hp : p a = true
    · right
      have hq : q b = true := by rw [← hpq _ _ hr]; exact hp
      exact ⟨a, b, by simp [List.find?_cons_of_pos _ hp],
        by simp [List.find?_cons_of_pos _ hq], hr⟩
    · have hq : ¬ q b = true := by rw [← hpq _ _ hr]; exact hp
      rw [List.find?_cons_of_neg _ hp, List.find?_cons_of_neg _ hq]
      exact ih

theorem forall2_filter {R : Elem → Elem → Prop} {p q : Elem → Bool}
    (hpq : ∀ a b, R a b → p a = q b) :
    ∀ {l1 l2 : List Elem}, List.Forall₂ R l1 l2 →
      List.Forall₂ R (l1.filter p) (l2.filter q) := by
  intro l1 l2 h
  induction h with
  | nil => exact List.Forall₂.nil
  | cons hr hrest ih =>
    rename_i a b r1 r2
    by_cases hp : p a = true
    · have hq : q b = true := by rw [← hpq _ _ hr]; exact hp
      rw [List.filter_cons_of_pos hp, List.filter_cons_of_pos hq]
      exact List.Forall₂.cons hr ih
    · have hq : ¬ q b = true := by rw [← hpq _ _ hr]; exact hp
      rw [List.filter_cons_of_neg (by simpa using hp), List.filter_cons_of_neg (by simpa using hq)]
      exact ih

theorem forall2_map_eq {R : Elem → Elem → Prop} {f g : Elem → String}
    (hfg : ∀ a b, R a b → f a = g b) :
    ∀ {l1 l2 : List Elem}, List.Forall₂ R l1 l2 → l1.map f = l2.map g := by
  intro l1 l2 h
  induction h with
  | nil => rfl
  | cons hr hrest ih =>
    simp only [List.map_cons, ih]
    rename_i a b r1 r2
    rw [hfg a b hr]

theorem ElemList.textOKL_mem : ∀ (c : ElemList), c.textOKL = true →
    ∀ a ∈ c.toList, a.textOK = true
  | .nil, _, a, ha => by simp [ElemList.toList] at ha
  | .cons e r, h, a, ha => by
    simp only [ElemList.textOKL, Bool.and_eq_true] at h
    rcases List.mem_cons.mp ha with h1 | h1
    · subst h1; exact h.1
    · exact ElemList.textOKL_mem r h.2 a h1

theorem Elem.textOK_children {e : Elem} (h : e.textOK = true) :
    ∀ a ∈ e.children, a.textOK = true := by
  cases e with
  | mk t a x c =>
    simp only [Elem.textOK, Bool.and_eq_true] at h
    simpa using ElemList.textOKL_mem c h.2

theorem Elem.textOK_attr {e : Elem} (h : e.textOK = true)
    (ht : e.tag = "attribute") : e.text.isSome := by
  cases e with
  | mk t a x c =>
    simp only [Elem.textOK, Bool.and_eq_true, Bool.or_eq_true, Bool.not_eq_true'] at h
    rcases h.1 with h1 | h1
    · simp only [Elem.tag_mk] at ht
      rw [ht] at h1
      simp at h1
    · exact h1

theorem get_object_key_isSome_of_textOK {e : Elem} (h : e.textOK = true) :
    (get_object_key e).isSome :=
  get_object_key_isSome e fun a ha hta => Elem.textOK_attr (Elem.textOK_children h a ha) hta

theorem textOKAll_children {e : Elem} (h : e.textOK = true) :
    textOKAll e.children = true := by
  unfold textOKAll
  rw [List.all_eq_true]
  intro a ha
  exact Elem.textOK_children h a ha

theorem findAttrChild_ignEq {e1 e2 : Elem} (h : e1.ignEq e2 = true) (nm : String) :
    (findAttrChild e1 nm = none ∧ findAttrChild e2 nm = none) ∨
    (∃ a b, findAttrChild e1 nm = some a ∧ findAttrChild e2 nm = some b ∧
      a.ignEq b = true) := by
  obtain ⟨_, _, _, hch⟩ := Elem.ignEq_destruct h
  unfold findAttrChild
  apply find?_forall2 _ hch
  intro a b hab
  obtain ⟨ht, ha, _, _⟩ := Elem.ignEq_destruct hab
  rw [ht, attrsIgnEq_lookup ha (by decide)]

theorem keyField_ignEq {e1 e2 : Elem} (h : e1.ignEq e2 = true) (nm : String) :
    keyField e1 nm = keyField e2 nm := by
  unfold keyField
  rcases findAttrChild_ignEq h nm with ⟨h1, h2⟩ | ⟨a, b, h1, h2, hab⟩
  · rw [h1, h2]
  · rw [h1, h2]
    obtain ⟨_, _, hx, _⟩ := Elem.ignEq_destruct hab
    simp only [hx]

theorem get_object_key_ignEq {e1 e2 : Elem} (h : e1.ignEq e2 = true) :
    get_object_key e1 = get_object_key e2 := by
  obtain ⟨ht, ha, _, _⟩ := Elem.ignEq_destruct h
  unfold get_object_key create_event_entity_mapping_key
    create_attribute_or_relationship_mapping_key create_mapping_model_key
  rw [← attrsIgnEq_lookup ha (by decide), ← ht,
    keyField_ignEq h "sourcename", keyField_ignEq h "destinationname",
    keyField_ignEq h "mappingtypename", keyField_ignEq h "name",
    keyField_ignEq h "sourcemodelpath"]

theorem keyedElems_eq_none {l : List Elem} (h : keyedElems l = none) :
    ∃ c ∈ l, get_object_key c = none := by
  induction l with
  | nil => simp [keyedElems] at h
  | cons c rest ih =>
    simp only [keyedElems] at h
    cases hk : get_object_key c with
    | none => exact ⟨c, List.mem_cons_self _ _, hk⟩
    | some k =>
      rw [hk] at h
      cases hr : keyedElems rest with
      | none =>
        obtain ⟨d, hd, hdk⟩ := ih hr
        exact ⟨d, List.mem_cons_of_mem _ hd, hdk⟩
      | some kr => rw [hr] at h; simp at h

/-- Pairwise relation on keyed entries: equal keys, related elements. -/
def KVRel (kv1 kv2 : List String × Elem) : Prop :=
  kv1.1 = kv2.1 ∧ kv1.2.ignEq kv2.2 = true

theorem keyedElems_ignEq :
    ∀ {l1 l2 : List Elem}, List.Forall₂ (fun a b => a.ignEq b = true) l1 l2 →
    (keyedElems l1 = none ∧ keyedElems l2 = none) ∨
    (∃ k1 k2, keyedElems l1 = some k1 ∧ keyedElems l2 = some k2 ∧
      List.Forall₂ KVRel k1 k2) := by
  intro l1 l2 h
  induction h with
  | nil => right; exact ⟨[], [], rfl, rfl, List.Forall₂.nil⟩
  | cons hr hrest ih =>
    rename_i a b r1 r2
    have hk := get_object_key_ignEq hr
    simp only [keyedElems]
    cases hka : get_object_key a with
    | none =>
      rw [← hk, hka]
      left
      constructor
      · cases keyedElems r1 <;> rfl
      · cases keyedElems r2 <;> rfl
    | some k =>
      rw [← hk, hka]
      rcases ih with ⟨h1, h2⟩ | ⟨k1, k2, h1, h2, hkv⟩
      · rw [h1, h2]; left; exact ⟨rfl, rfl⟩
      · rw [h1, h2]
        right
        exact ⟨(k, a) :: k1, (k, b) :: k2, rfl, rfl,
          List.Forall₂.cons ⟨rfl, hr⟩ hkv⟩

theorem dictGet_kvrel {k1 k2 : List (List String × Elem)}
    (h : List.Forall₂ KVRel k1 k2) (key : List String) :
    (dictGet k1 key = none ∧ dictGet k2 key = none) ∨
    (∃ a b, dictGet k1 key = some a ∧ dictGet k2 key = some b ∧ a.ignEq b = true) := by
  unfold dictGet
  have hrev : List.Forall₂ KVRel k1.reverse k2.reverse :=
    List.forall₂_reverse_iff.mpr h
  have := find?_forall2 (p := fun kv => kv.1 == key) (q := fun kv => kv.1 == key)
    (fun a b hab => by simp only []; rw [hab.1]) hrev
  rcases this with ⟨h1, h2⟩ | ⟨a, b, h1, h2, hab⟩
  · left; rw [h1, h2]; exact ⟨rfl, rfl⟩
  · right
    exact ⟨a.2, b.2, by rw [h1]; rfl, by rw [h2]; rfl, hab.2⟩

theorem dictKeys_kvrel {k1 k2 : List (List String × Elem)}
    (h : List.Forall₂ KVRel k1 k2) : dictKeys k1 = dictKeys k2 := by
  unfold dictKeys
  have : k1.map Prod.fst = k2.map Prod.fst := by
    induction h with
    | nil => rfl
    | cons hr hrest ih => simp only [List.map_cons, ih, hr.1]
  rw [this]

theorem setEqL_refl (l : List String) : setEqL l l = true := by
  unfold setEqL
  rw [Bool.and_eq_true, List.all_eq_true]
  exact ⟨fun x hx => by simpa using hx, fun x hx => by simpa using hx⟩

theorem compare_text_ignEq {o n : Elem} (h : o.ignEq n = true) (p : String) :
    compare_text o n p = [] := by
  obtain ⟨_, _, hx, _⟩ := Elem.ignEq_destruct h
  unfold compare_text
  by_cases hg : (o.tag == "attribute" && o.attrib.lookup "name" == some "mappingnumber") = true
  · rw [if_pos hg]
  · rw [if_neg hg]
    simp [hx]

theorem compare_attributes_ignEq {o n : Elem} (h : o.ignEq n = true) (p : String) :
    compare_attributes o n p = [] := by
  obtain ⟨_, ha, _, _⟩ := Elem.ignEq_destruct h
  unfold compare_attributes
  rw [List.filterMap_eq_nil_iff]
  intro a hamem
  rw [List.mem_filter] at hamem
  have hnig : IGNORED_ATTRIBUTES.contains a = false := by
    have := hamem.2
    simp only [Bool.not_eq_true'] at this
    exact this
  rw [attrsIgnEq_lookup ha hnig]
  simp

theorem forall2_getElem? {α β : Type} {R : α → β → Prop} :
    ∀ {l1 : List α} {l2 : List β}, List.Forall₂ R l1 l2 → ∀ i : Nat,
      (l1[i]? = none ∧ l2[i]? = none) ∨
      (∃ a b, l1[i]? = some a ∧ l2[i]? = some b ∧ R a b) := by
  intro l1 l2 h
  induction h with
  | nil => intro i; left; simp
  | cons hr hrest ih =>
    intro i
    cases i with
    | zero =>
      right
      rename_i a b r1 r2
      exact ⟨a, b, by simp, by simp, hr⟩
    | succ j => simpa using ih j

theorem planObjects_ignEq {l1 l2 : List Elem} {p : String}
    (h : List.Forall₂ (fun a b => a.ignEq b = true) l1 l2) :
    ∀ t ∈ planObjects l1 l2 p,
      t = CTask.emit [] ∨
      (∃ a b sp, t = CTask.cmp a b sp ∧ a.ignEq b = true) ∨
      (t = CTask.raise ∧ ∃ c ∈ l1, c.textOK = false) := by
  intro t ht
  unfold planObjects at ht
  rcases keyedElems_ignEq h with ⟨h1, h2⟩ | ⟨k1, k2, h1, h2, hkv⟩
  · rw [h1, h2] at ht
    simp only [List.mem_singleton] at ht
    right; right
    refine ⟨ht, ?_⟩
    obtain ⟨c, hc, hck⟩ := keyedElems_eq_none h1
    refine ⟨c, hc, ?_⟩
    cases hto : c.textOK with
    | false => rfl
    | true =>
      have := get_object_key_isSome_of_textOK hto
      rw [hck] at this
      simp at this
  · rw [h1, h2] at ht
    obtain ⟨key, hkey, htask⟩ := List.mem_map.mp ht
    unfold objTask at htask
    rcases dictGet_kvrel hkv key with ⟨d1, d2⟩ | ⟨a, b, d1, d2, hab⟩
    · rw [d1, d2] at htask
      left; exact htask.symm
    · rw [d1, d2] at htask
      right; left
      exact ⟨a, b, _, htask.symm, hab⟩

theorem planDefault_ignEq {l1 l2 : List Elem} {p tg : String}
    (h : List.Forall₂ (fun a b => a.ignEq b = true) l1 l2) :
    ∀ t ∈ planDefault l1 l2 p tg,
      t = CTask.emit [] ∨
      (∃ a b sp, t = CTask.cmp a b sp ∧ a.ignEq b = true) := by
  intro t ht
  unfold planDefault at ht
  obtain ⟨i, hi, htask⟩ := List.mem_map.mp ht
  unfold defTask at htask
  rcases forall2_getElem? h i with ⟨d1, d2⟩ | ⟨a, b, d1, d2, hab⟩
  · rw [d1, d2] at htask
    left; exact htask.symm
  · rw [d1, d2] at htask
    right
    exact ⟨a, b, _, htask.symm, hab⟩

theorem filter_children_congr :
    ∀ (a b : Elem), a.ignEq b = true →
      (!(a.tag == "attribute" &&
        (match a.attrib.lookup "name" with
         | some nm => ["sourcemodeldata", "destinationmodeldata", "mappingnumber"].contains nm
         | none => false))) =
      (!(b.tag == "attribute" &&
        (match b.attrib.lookup "name" with
         | some nm => ["sourcemodeldata", "destinationmodeldata", "mappingnumber"].contains nm
         | none => false))) := by
  intro a b hab
  obtain ⟨ht, ha, _, _⟩ := Elem.ignEq_destruct hab
  rw [ht, attrsIgnEq_lookup ha (by decide)]

theorem planChildren_ignEq {l1 l2 : List Elem} {p : String}
    (h : List.Forall₂ (fun a b => a.ignEq b = true) l1 l2) :
    ∀ t ∈ planChildren l1 l2 p,
      t = CTask.emit [] ∨
      (∃ a b sp, t = CTask.cmp a b sp ∧ a.ignEq b = true) ∨
      (t = CTask.raise ∧ ∃ c ∈ l1, c.textOK = false) := by
  intro t ht
  unfold planChildren at ht
  rw [List.mem_flatten] at ht
  obtain ⟨group, hg, hmem⟩ := ht
  obtain ⟨tag, htag, hbody⟩ := List.mem_map.mp hg
  subst hbody
  unfold tagTasks at hmem
  have hfc : List.Forall₂ (fun a b => a.ignEq b = true)
      (filter_children l1) (filter_children l2) :=
    forall2_filter filter_children_congr h
  have hgrp : List.Forall₂ (fun a b => a.ignEq b = true)
      ((filter_children l1).filter (fun c => c.tag == tag))
      ((filter_children l2).filter (fun c => c.tag == tag)) := by
    apply forall2_filter _ hfc
    intro a b hab
    rw [(Elem.ignEq_destruct hab).1]
  by_cases h1 : (tag == "key" && containsPlistDict p.data) = true
  · rw [if_pos h1] at hmem
    simp only [List.mem_singleton] at hmem
    left
    rw [hmem]
    have heqmaps : ((filter_children l1).filter (fun c => c.tag == tag)).map
          (fun c => pstrip (c.text.getD "")) =
        ((filter_children l2).filter (fun c => c.tag == tag)).map
          (fun c => pstrip (c.text.getD "")) := by
      apply forall2_map_eq _ hgrp
      intro a b hab
      rw [(Elem.ignEq_destruct hab).2.2.1]
    rw [handle_plist_keys_def, heqmaps, if_pos (setEqL_refl _)]
  · rw [if_neg h1] at hmem
    by_cases h2 : (tag == "object") = true
    · rw [if_pos h2] at hmem
      rcases planObjects_ignEq hgrp t hmem with h3 | h3 | ⟨h3, c, hc, hcf⟩
      · left; exact h3
      · right; left; exact h3
      · right; right
        exact ⟨h3, c, filter_children_subset (List.mem_of_mem_filter hc), hcf⟩
    · rw [if_neg h2] at hmem
      rcases planDefault_ignEq hgrp t hmem with h3 | h3
      · left; exact h3
      · right; left; exact h3

/-- Main diagonal lemma: on trees equal up to ignored-attribute values,
the comparison either raises or returns no records; it cannot raise
when every `attribute` element of the old tree carries text. -/
theorem diffF_ignEq :
    ∀ (fuel : Nat) (o n : Elem) (p : String),
      o.size + n.size ≤ fuel → o.ignEq n = true →
      (diffF fuel o n p = none ∨ diffF fuel o n p = some []) ∧
      (o.textOK = true → diffF fuel o n p = some []) := by
  intro fuel
  induction fuel with
  | zero =>
    intro o n p hsz _
    have := Elem.size_pos o
    omega
  | succ fz ih =>
    intro o n p hsz hig
    obtain ⟨htag, _, _, hch⟩ := Elem.ignEq_destruct hig
    rw [diffF_succ, if_neg (by rw [htag]; simp)]
    have hclass := planChildren_ignEq hch (p := p)
    cases hrun : runTasksF fz (planChildren o.children n.children p) with
    | none =>
      constructor
      · left; rfl
      · intro hok
        exfalso
        rw [runTasksF_eq_none_iff] at hrun
        obtain ⟨t, ht, hev⟩ := hrun
        rcases hclass t ht with h3 | ⟨a, b, sp, h3, hab⟩ | ⟨h3, c, hc, hcf⟩
        · rw [h3] at hev; simp [taskEvalF] at hev
        · rw [h3] at hev
          simp only [taskEvalF] at hev
          have hsz2 := planChildren_cmp_size (h3 ▸ ht)
          have := (ih a b sp (by omega) hab).2
          have hta : a.textOK = true :=
            Elem.textOK_children hok a (planChildren_cmp_mem (h3 ▸ ht)).1
          rw [this hta] at hev
          simp at hev
        · have := Elem.textOK_children hok c hc
          rw [this] at hcf
          simp at hcf
    | some l =>
      have hl : l = [] := by
        rw [List.eq_nil_iff_forall_not_mem]
        intro r hr
        rw [runTasksF_eq_some _ _ hrun r] at hr
        obtain ⟨t, ht, u, hev, hru⟩ := hr
        rcases hclass t ht with h3 | ⟨a, b, sp, h3, hab⟩ | ⟨h3, c, hc, hcf⟩
        · rw [h3] at hev
          simp only [taskEvalF] at hev
          injection hev with hev
          rw [← hev] at hru
          simp at hru
        · rw [h3] at hev
          simp only [taskEvalF] at hev
          have hsz2 := planChildren_cmp_size (h3 ▸ ht)
          rcases (ih a b sp (by omega) hab).1 with h4 | h4
          · rw [h4] at hev; simp at hev
          · rw [h4] at hev
            injection hev with hev
            rw [← hev] at hru
            simp at hru
        · rw [h3] at hev
          simp [taskEvalF] at hev
      subst hl
      constructor
      · right
        rw [compare_text_ignEq hig, compare_attributes_ignEq hig]
        rfl
      · intro _
        rw [compare_text_ignEq hig, compare_attributes_ignEq hig]
        rfl

/-- Claim C5, counterexample: self-comparison is not always empty.  A
tree containing an `XDDEVMAPPINGMODEL` object whose `sourcemodelpath`
attribute child is textless makes `diff_elements(T, T, p)` raise inside
key derivation (modelled as `none`) instead of returning the empty
record sequence. -/
theorem c5_cex :
    diff_elements
      (some (elem "root" [] none [elem "object" [("type", "XDDEVMAPPINGMODEL")] none
        [elem "attribute" [("name", "sourcemodelpath")] none []]]))
      (some (elem "root" [] none [elem "object" [("type", "XDDEVMAPPINGMODEL")] none
        [elem "attribute" [("name", "sourcemodelpath")] none []]])) "p" = none := by decide

/-- Claim C5 (amended): comparing a tree against itself yields the empty
record sequence whenever every `attribute`-tagged element of the tree
carries text (the condition under which no key derivation raises); in
general, self-comparison either raises or is empty (see `c5_cex` for a
raising tree). -/
theorem c5_thm (T : Elem) (p : String) (h : T.textOK = true) :
    diff_elements (some T) (some T) p = some [] := by
  rw [diff_elements_present]
  exact (diffF_ignEq _ T T p (le_refl _) (Elem.ignEq_refl T)).2 h

/-- Witness for `c5_thm`. -/
theorem c5_wit :
    (elem "root" [] none [elem "object" [("type", "XDDEVMAPPINGMODEL")] none
      [elem "attribute" [("name", "sourcemodelpath")] (some "P") []]]).textOK = true ∧
    diff_elements
      (some (elem "root" [] none [elem "object" [("type", "XDDEVMAPPINGMODEL")] none
        [elem "attribute" [("name", "sourcemodelpath")] (some "P") []]]))
      (some (elem "root" [] none [elem "object" [("type", "XDDEVMAPPINGMODEL")] none
        [elem "attribute" [("name", "sourcemodelpath")] (some "P") []]])) "p" = some [] :=
  ⟨by decide, c5_thm _ "p" (by decide)⟩

/-- Claim C8 (confirmed): if `T'` differs from `T` only in the values of
ignored attributes (in particular, in the value of a single ignored
attribute on a single node), the comparison emits no Mismatch record:
it returns either no records at all (a raise) or the empty sequence. -/
theorem c8_thm (T T' : Elem) (p : String) (h : T.ignEq T' = true)
    (l : List DRec) (hl : diff_elements (some T) (some T') p = some l) :
    ∀ r ∈ l, r.kind ≠ TYPE_MISMATCH := by
  rw [diff_elements_present] at hl
  rcases (diffF_ignEq _ T T' p (le_refl _) h).1 with h1 | h1
  · rw [h1] at hl; exact absurd hl (by simp)
  · rw [h1] at hl
    injection hl with hl
    subst hl
    intro r hr
    simp at hr

/-- Witness for `c8_thm`: changing only the ignored `id` attribute's
value produces the empty diff, hence no Mismatch. -/
theorem c8_wit :
    (elem "node" [("id", "1")] (some "v") []).ignEq
      (elem "node" [("id", "2")] (some "v") []) = true ∧
    diff_elements (some (elem "node" [("id", "1")] (some "v") []))
      (some (elem "node" [("id", "2")] (some "v") [])) "r" = some [] ∧
    (∀ r ∈ ([] : List DRec), r.kind ≠ TYPE_MISMATCH) :=
  ⟨by decide, by decide,
    c8_thm (elem "node" [("id", "1")] (some "v") [])
      (elem "node" [("id", "2")] (some "v") []) "r" (by decide) [] (by decide)⟩

theorem mem_dedupL {α : Type} [BEq α] [LawfulBEq α] (l : List α) (a : α) :
    a ∈ dedupL l ↔ a ∈ l := by
  induction l with
  | nil => simp [dedupL]
  | cons x r ih =>
    simp only [dedupL, List.mem_cons, List.mem_filter]
    by_cases ha : a = x
    · simp [ha]
    · simp only [ha, false_or, Bool.not_eq_true']
      constructor
      · rintro ⟨h1, _⟩; exact ih.mp h1
      · intro h1
        exact ⟨ih.mpr h1, by simpa using ha⟩

theorem contains_eq_of_mem_iff {α : Type} [BEq α] [LawfulBEq α]
    {l1 l2 : List α} (h : ∀ a, a ∈ l1 ↔ a ∈ l2) (a : α) :
    l1.contains a = l2.contains a := by
  by_cases hm : a ∈ l1
  · simp [hm, (h a).mp hm]
  · have h2 : a ∉ l2 := fun hc => hm ((h a).mpr hc)
    simp [hm, h2]

/-- Decidable no-duplicates check for key lists. -/
def nodupB : List (List String) → Bool
  | [] => true
  | k :: r => !r.contains k && nodupB r

theorem nodupB_iff : ∀ l : List (List String), nodupB l = true ↔ l.Nodup
  | [] => by simp [nodupB]
  | k :: r => by
    simp only [nodupB, Bool.and_eq_true, Bool.not_eq_true', List.nodup_cons]
    rw [nodupB_iff r]
    constructor
    · rintro ⟨h1, h2⟩
      refine ⟨fun hc => ?_, h2⟩
      simp [hc] at h1
    · rintro ⟨h1, h2⟩
      refine ⟨?_, h2⟩
      simp [h1]

/-- The derived object keys of a child list are pairwise distinct (when
the derivation raises, the condition holds vacuously). -/
def nodupKeysB (l : List Elem) : Bool :=
  match keyedElems l with
  | none => true
  | some kl => nodupB (kl.map Prod.fst)

/-- Two optional record lists that raise together and, when both
succeed, hold the same set of records. -/
def OptSetEq : Option (List DRec) → Option (List DRec) → Prop
  | none, none => True
  | some l1, some l2 => ∀ r, r ∈ l1 ↔ r ∈ l2
  | _, _ => False

theorem runTasksF_set_congr {f1 f2 : Nat} {ts1 ts2 : List CTask}
    (hmem : ∀ t, t ∈ ts1 ↔ t ∈ ts2)
    (heval : ∀ t ∈ ts1, taskEvalF f1 t = taskEvalF f2 t) :
    OptSetEq (runTasksF f1 ts1) (runTasksF f2 ts2) := by
  cases h1 : runTasksF f1 ts1 with
  | none =>
    cases h2 : runTasksF f2 ts2 with
    | none => trivial
    | some l2 =>
      exfalso
      rw [runTasksF_eq_none_iff] at h1
      obtain ⟨t, ht, hev⟩ := h1
      have hev2 : taskEvalF f2 t = none := by rw [← heval t ht]; exact hev
      have : runTasksF f2 ts2 = none :=
        (runTasksF_eq_none_iff _ _).mpr ⟨t, (hmem t).mp ht, hev2⟩
      rw [h2] at this
      exact absurd this (by simp)
  | some l1 =>
    cases h2 : runTasksF f2 ts2 with
    | none =>
      exfalso
      rw [runTasksF_eq_none_iff] at h2
      obtain ⟨t, ht, hev⟩ := h2
      have ht1 := (hmem t).mpr ht
      have hev1 : taskEvalF f1 t = none := by rw [heval t ht1]; exact hev
      have : runTasksF f1 ts1 = none :=
        (runTasksF_eq_none_iff _ _).mpr ⟨t, ht1, hev1⟩
      rw [h1] at this
      exact absurd this (by simp)
    | some l2 =>
      intro r
      rw [runTasksF_eq_some _ _ h1 r, runTasksF_eq_some _ _ h2 r]
      constructor
      · rintro ⟨t, ht, u, hev, hr⟩
        exact ⟨t, (hmem t).mp ht, u, by rw [← heval t ht]; exact hev, hr⟩
      · rintro ⟨t, ht, u, hev, hr⟩
        have ht1 := (hmem t).mpr ht
        exact ⟨t, ht1, u, by rw [heval t ht1]; exact hev, hr⟩

theorem listSize_perm {l l' : List Elem} (h : l.Perm l') :
    listSize l = listSize l' := (h.map Elem.size).sum_eq

theorem keyedElems_perm {l l' : List Elem} (h : l.Perm l') :
    (keyedElems l = none ∧ keyedElems l' = none) ∨
    (∃ kl kl', keyedElems l = some kl ∧ keyedElems l' = some kl' ∧ kl.Perm kl') := by
  induction h with
  | nil => right; exact ⟨[], [], rfl, rfl, List.Perm.refl _⟩
  | cons x h ih =>
    rename_i l1 l2
    simp only [keyedElems]
    cases hk : get_object_key x with
    | none =>
      left
      constructor
      · cases keyedElems l1 <;> rfl
      · cases keyedElems l2 <;> rfl
    | some k =>
      rcases ih with ⟨h1, h2⟩ | ⟨kl, kl', h1, h2, hp⟩
      · rw [h1, h2]; left; exact ⟨rfl, rfl⟩
      · rw [h1, h2]
        right
        exact ⟨(k, x) :: kl, (k, x) :: kl', rfl, rfl, hp.cons _⟩
  | swap x y l =>
    simp only [keyedElems]
    cases hx : get_object_key x with
    | none =>
      cases hy : get_object_key y with
      | none => left; exact ⟨rfl, rfl⟩
      | some ky =>
        left
        constructor
        · cases keyedElems l <;> rfl
        · cases keyedElems l <;> rfl
    | some kx =>
      cases hy : get_object_key y with
      | none =>
        left
        constructor
        · cases keyedElems l <;> rfl
        · cases keyedElems l <;> rfl
      | some ky =>
        cases hl : keyedElems l with
        | none => left; exact ⟨rfl, rfl⟩
        | some kl =>
          right
          exact ⟨(ky, y) :: (kx, x) :: kl, (kx, x) :: (ky, y) :: kl, rfl, rfl,
            List.Perm.swap _ _ _⟩
  | trans h1 h2 ih1 ih2 =>
    rcases ih1 with ⟨ha, hb⟩ | ⟨kl, kl', ha, hb, hp⟩
    · rcases ih2 with ⟨hc, hd⟩ | ⟨km, km', hc, hd, hq⟩
      · left; exact ⟨ha, hd⟩
      · rw [hb] at hc; exact absurd hc (by simp)
    · rcases ih2 with ⟨hc, hd⟩ | ⟨km, km', hc, hd, hq⟩
      · rw [hb] at hc; exact absurd hc (by simp)
      · right
        rw [hb] at hc
        injection hc with hc
        subst hc
        exact ⟨kl, km', ha, hd, hp.trans hq⟩

theorem nodup_keys_unique {kl : List (List String × Elem)}
    (hnd : (kl.map Prod.fst).Nodup) {k : List String} {a b : Elem}
    (ha : (k, a) ∈ kl) (hb : (k, b) ∈ kl) : a = b := by
  induction kl with
  | nil => simp at ha
  | cons kv rest ih =>
    simp only [List.map_cons, List.nodup_cons] at hnd
    rcases List.mem_cons.mp ha with h1 | h1
    · rcases List.mem_cons.mp hb with h2 | h2
      · exact congrArg Prod.snd (h1.trans h2.symm)
      · exfalso
        apply hnd.1
        have hkv : kv.1 = k := by rw [← h1]
        rw [hkv]
        exact List.mem_map_of_mem Prod.fst h2
    · rcases List.mem_cons.mp hb with h2 | h2
      · exfalso
        apply hnd.1
        have hkv : kv.1 = k := by rw [← h2]
        rw [hkv]
        exact List.mem_map_of_mem Prod.fst h1
      · exact ih hnd.2 h1 h2

theorem dictGet_eq_some_iff {kl : List (List String × Elem)}
    (hnd : (kl.map Prod.fst).Nodup) {k : List String} {e : Elem} :
    dictGet kl k = some e ↔ (k, e) ∈ kl := by
  constructor
  · intro h
    unfold dictGet at h
    cases hf : kl.reverse.find? (fun kv => kv.1 == k) with
    | none => rw [hf] at h; simp at h
    | some kv =>
      rw [hf] at h
      simp only [Option.map_some'] at h
      injection h with h
      have hmem := List.mem_reverse.mp (List.mem_of_find?_eq_some hf)
      have hpred := List.find?_some hf
      simp only [beq_iff_eq] at hpred
      rw [← h, ← hpred]
      rwa [← Prod.mk.eta (p := kv)] at hmem
  · intro h
    have hrev : (k, e) ∈ kl.reverse := List.mem_reverse.mpr h
    have hsome : (kl.reverse.find? (fun kv => kv.1 == k)).isSome :=
      List.find?_isSome.mpr ⟨(k, e), hrev, by simp⟩
    cases hf : kl.reverse.find? (fun kv => kv.1 == k) with
    | none => rw [hf] at hsome; simp at hsome
    | some kv =>
      have hmem := List.mem_reverse.mp (List.mem_of_find?_eq_some hf)
      have hpred := List.find?_some hf
      simp only [beq_iff_eq] at hpred
      have : kv.2 = e := by
        apply nodup_keys_unique hnd _ h
        rw [← hpred]
        rwa [← Prod.mk.eta (p := kv)] at hmem
      unfold dictGet
      rw [hf]
      simp [this]

theorem dictGet_eq_none_iff {kl : List (List String × Elem)} {k : List String} :
    dictGet kl k = none ↔ k ∉ kl.map Prod.fst := by
  unfold dictGet
  rw [Option.map_eq_none', List.find?_eq_none]
  constructor
  · intro h hc
    obtain ⟨kv, hkv, hfst⟩ := List.mem_map.mp hc
    exact absurd (by simp [hfst]) (h kv (List.mem_reverse.mpr hkv))
  · intro h kv hkv hpred
    simp only [beq_iff_eq] at hpred
    apply h
    rw [← hpred]
    exact List.mem_map_of_mem Prod.fst (List.mem_reverse.mp hkv)

theorem dictGet_perm {kl kl' : List (List String × Elem)} (h : kl.Perm kl')
    (hnd : (kl.map Prod.fst).Nodup) (k : List String) :
    dictGet kl k = dictGet kl' k := by
  have hnd' : (kl'.map Prod.fst).Nodup := ((h.map Prod.fst).nodup_iff).mp hnd
  cases hg : dictGet kl k with
  | some e =>
    have := (dictGet_eq_some_iff hnd).mp hg
    exact ((dictGet_eq_some_iff hnd').mpr (h.mem_iff.mp this)).symm
  | none =>
    have := dictGet_eq_none_iff.mp hg
    refine (dictGet_eq_none_iff.mpr ?_).symm
    intro hc
    exact this (((h.map Prod.fst).mem_iff).mpr hc)

theorem dictKeys_mem_iff_of_perm {kl kl' : List (List String × Elem)}
    (h : kl.Perm kl') (q : List String) :
    q ∈ dictKeys kl ↔ q ∈ dictKeys kl' := by
  unfold dictKeys
  rw [mem_dedupL, mem_dedupL]
  exact (h.map Prod.fst).mem_iff

theorem objTask_congr {kold knew kold' knew' : List (List String × Elem)}
    {p : String} {key : List String}
    (h1 : dictGet kold key = dictGet kold' key)
    (h2 : dictGet knew key = dictGet knew' key) :
    objTask kold knew p key = objTask kold' knew' p key := by
  unfold objTask
  rw [h1, h2]

theorem objPlan_mem_imp {kold knew kold' knew' : List (List String × Elem)} {p : String}
    (hko : ∀ q, q ∈ dictKeys kold ↔ q ∈ dictKeys kold')
    (hkn : ∀ q, q ∈ dictKeys knew ↔ q ∈ dictKeys knew')
    (hgo : ∀ q, dictGet kold q = dictGet kold' q)
    (hgn : ∀ q, dictGet knew q = dictGet knew' q) (t : CTask)
    (ht : t ∈ (dictKeys kold ++
        (dictKeys knew).filter (fun k => !(dictKeys kold).contains k)).map
      (objTask kold knew p)) :
    t ∈ (dictKeys kold' ++
        (dictKeys knew').filter (fun k => !(dictKeys kold').contains k)).map
      (objTask kold' knew' p) := by
  rw [List.mem_map] at ht ⊢
  obtain ⟨q, hq, htq⟩ := ht
  refine ⟨q, ?_, by rw [← objTask_congr (hgo q) (hgn q)]; exact htq⟩
  rw [List.mem_append, List.mem_filter] at hq ⊢
  rcases hq with h | ⟨h, hc⟩
  · left; exact (hko q).mp h
  · right
    refine ⟨(hkn q).mp h, ?_⟩
    rw [← contains_eq_of_mem_iff hko q]
    exact hc

/-- Claim C3, counterexample: the key-based strategy is not invariant
under permutation when two siblings share a key.  With two
`XDDEVMAPPINGMODEL` objects of the same key but different text, the
later sibling wins; permuting them changes which one is compared, so
the diff set changes. -/
theorem c3_cex :
    ([elem "object" [("type", "XDDEVMAPPINGMODEL")] (some "1")
        [elem "attribute" [("name", "sourcemodelpath")] (some "P") []],
      elem "object" [("type", "XDDEVMAPPINGMODEL")] (some "2")
        [elem "attribute" [("name", "sourcemodelpath")] (some "P") []]] : List Elem).Perm
      [elem "object" [("type", "XDDEVMAPPINGMODEL")] (some "2")
        [elem "attribute" [("name", "sourcemodelpath")] (some "P") []],
       elem "object" [("type", "XDDEVMAPPINGMODEL")] (some "1")
        [elem "attribute" [("name", "sourcemodelpath")] (some "P") []]] ∧
    handle_object_nodes
      [elem "object" [("type", "XDDEVMAPPINGMODEL")] (some "1")
        [elem "attribute" [("name", "sourcemodelpath")] (some "P") []],
       elem "object" [("type", "XDDEVMAPPINGMODEL")] (some "2")
        [elem "attribute" [("name", "sourcemodelpath")] (some "P") []]]
      [elem "object" [("type", "XDDEVMAPPINGMODEL")] (some "2")
        [elem "attribute" [("name", "sourcemodelpath")] (some "P") []]] "p" = some [] ∧
    handle_object_nodes
      [elem "object" [("type", "XDDEVMAPPINGMODEL")] (some "2")
        [elem "attribute" [("name", "sourcemodelpath")] (some "P") []],
       elem "object" [("type", "XDDEVMAPPINGMODEL")] (some "1")
        [elem "attribute" [("name", "sourcemodelpath")] (some "P") []]]
      [elem "object" [("type", "XDDEVMAPPINGMODEL")] (some "2")
        [elem "attribute" [("name", "sourcemodelpath")] (some "P") []]] "p" =
      some [⟨TYPE_MISMATCH, CATEGORY_MISMATCH, "p.object[sourcemodelpath: P] text",
        some (some "1"), some (some "2"), none, some "text"⟩] ∧
    ¬ OptSetEq
      (handle_object_nodes
        [elem "object" [("type", "XDDEVMAPPINGMODEL")] (some "1")
          [elem "attribute" [("name", "sourcemodelpath")] (some "P") []],
         elem "object" [("type", "XDDEVMAPPINGMODEL")] (some "2")
          [elem "attribute" [("name", "sourcemodelpath")] (some "P") []]]
        [elem "object" [("type", "XDDEVMAPPINGMODEL")] (some "2")
          [elem "attribute" [("name", "sourcemodelpath")] (some "P") []]] "p")
      (handle_object_nodes
        [elem "object" [("type", "XDDEVMAPPINGMODEL")] (some "2")
          [elem "attribute" [("name", "sourcemodelpath")] (some "P") []],
         elem "object" [("type", "XDDEVMAPPINGMODEL")] (some "1")
          [elem "attribute" [("name", "sourcemodelpath")] (some "P") []]]
        [elem "object" [("type", "XDDEVMAPPINGMODEL")] (some "2")
          [elem "attribute" [("name", "sourcemodelpath")] (some "P") []]] "p") := by
  refine ⟨by decide, by decide, by decide, ?_⟩
  intro hc
  have hA : handle_object_nodes
      [elem "object" [("type", "XDDEVMAPPINGMODEL")] (some "1")
        [elem "attribute" [("name", "sourcemodelpath")] (some "P") []],
       elem "object" [("type", "XDDEVMAPPINGMODEL")] (some "2")
        [elem "attribute" [("name", "sourcemodelpath")] (some "P") []]]
      [elem "object" [("type", "XDDEVMAPPINGMODEL")] (some "2")
        [elem "attribute" [("name", "sourcemodelpath")] (some "P") []]] "p" = some [] := by
    decide
  have hB : handle_object_nodes
      [elem "object" [("type", "XDDEVMAPPINGMODEL")] (some "2")
        [elem "attribute" [("name", "sourcemodelpath")] (some "P") []],
       elem "object" [("type", "XDDEVMAPPINGMODEL")] (some "1")
        [elem "attribute" [("name", "sourcemodelpath")] (some "P") []]]
      [elem "object" [("type", "XDDEVMAPPINGMODEL")] (some "2")
        [elem "attribute" [("name", "sourcemodelpath")] (some "P") []]] "p" =
      some [⟨TYPE_MISMATCH, CATEGORY_MISMATCH, "p.object[sourcemodelpath: P] text",
        some (some "1"), some (some "2"), none, some "text"⟩] := by
    decide
  rw [hA, hB] at hc
  have := (hc ⟨TYPE_MISMATCH, CATEGORY_MISMATCH, "p.object[sourcemodelpath: P] text",
    some (some "1"), some (some "2"), none, some "text"⟩).mpr (by simp)
  simp at this

/-- Claim C3 (amended): the key-based strategy of `handle_object_nodes`
is order-independent provided the derived keys on each side are pairwise
distinct: permuting either sibling list yields a result that raises
together with the original and otherwise holds the same set of records.
(With duplicate keys the last sibling wins and permutation changes the
winner, see `c3_cex`.) -/
theorem c3_thm (ol ol' nl nl' : List Elem) (p : String)
    (ho : ol.Perm ol') (hn : nl.Perm nl')
    (hko : nodupKeysB ol = true) (hkn : nodupKeysB nl = true) :
    OptSetEq (handle_object_nodes ol nl p) (handle_object_nodes ol' nl' p) := by
  unfold handle_object_nodes
  have hf : listSize ol' + listSize nl' = listSize ol + listSize nl := by
    rw [listSize_perm ho, listSize_perm hn]
  rw [hf]
  apply runTasksF_set_congr
  · intro t
    unfold planObjects
    rcases keyedElems_perm ho with ⟨e1, e2⟩ | ⟨kl, kl', e1, e2, hp⟩
    · rw [e1, e2]
    · rw [e1, e2]
      rcases keyedElems_perm hn with ⟨f1, f2⟩ | ⟨km, km', f1, f2, hq⟩
      · rw [f1, f2]
      · rw [f1, f2]
        have hnd : (kl.map Prod.fst).Nodup := by
          unfold nodupKeysB at hko
          rw [e1] at hko
          exact (nodupB_iff _).mp hko
        have hndn : (km.map Prod.fst).Nodup := by
          unfold nodupKeysB at hkn
          rw [f1] at hkn
          exact (nodupB_iff _).mp hkn
        constructor
        · exact objPlan_mem_imp (fun q => dictKeys_mem_iff_of_perm hp q)
            (fun q => dictKeys_mem_iff_of_perm hq q)
            (fun q => dictGet_perm hp hnd q) (fun q => dictGet_perm hq hndn q) t
        · exact objPlan_mem_imp (fun q => (dictKeys_mem_iff_of_perm hp q).symm)
            (fun q => (dictKeys_mem_iff_of_perm hq q).symm)
            (fun q => (dictGet_perm hp hnd q).symm)
            (fun q => (dictGet_perm hq hndn q).symm) t
  · intro t ht
    rfl

/-- Witness for `c3_thm`. -/
theorem c3_wit :
    ([elem "object" [("type", "XDDEVATTRIBUTEMAPPING")] none
        [elem "attribute" [("name", "name")] (some "a") []],
      elem "object" [("type", "XDDEVATTRIBUTEMAPPING")] none
        [elem "attribute" [("name", "name")] (some "b") []]] : List Elem).Perm
      [elem "object" [("type", "XDDEVATTRIBUTEMAPPING")] none
        [elem "attribute" [("name", "name")] (some "b") []],
       elem "object" [("type", "XDDEVATTRIBUTEMAPPING")] none
        [elem "attribute" [("name", "name")] (some "a") []]] ∧
    nodupKeysB
      [elem "object" [("type", "XDDEVATTRIBUTEMAPPING")] none
        [elem "attribute" [("name", "name")] (some "a") []],
       elem "object" [("type", "XDDEVATTRIBUTEMAPPING")] none
        [elem "attribute" [("name", "name")] (some "b") []]] = true ∧
    OptSetEq
      (handle_object_nodes
        [elem "object" [("type", "XDDEVATTRIBUTEMAPPING")] none
          [elem "attribute" [("name", "name")] (some "a") []],
         elem "object" [("type", "XDDEVATTRIBUTEMAPPING")] none
          [elem "attribute" [("name", "name")] (some "b") []]]
        [elem "object" [("type", "XDDEVATTRIBUTEMAPPING")] none
          [elem "attribute" [("name", "name")] (some "a") []]] "p")
      (handle_object_nodes
        [elem "object" [("type", "XDDEVATTRIBUTEMAPPING")] none
          [elem "attribute" [("name", "name")] (some "b") []],
         elem "object" [("type", "XDDEVATTRIBUTEMAPPING")] none
          [elem "attribute" [("name", "name")] (some "a") []]]
        [elem "object" [("type", "XDDEVATTRIBUTEMAPPING")] none
          [elem "attribute" [("name", "name")] (some "a") []]] "p") :=
  ⟨by decide, by decide,
    c3_thm _ _ _ _ "p" (by decide) (by decide) (by decide) (by decide)⟩

theorem keyedElems_cons (c : Elem) (l : List Elem) :
    keyedElems (c :: l) =
      match get_object_key c, keyedElems l with
      | some k, some kr => some ((k, c) :: kr)
      | _, _ => none := rfl

theorem keyedElems_append : ∀ (xs ys : List Elem),
    keyedElems (xs ++ ys) =
      match keyedElems xs, keyedElems ys with
      | some a, some b => some (a ++ b)
      | _, _ => none
  | [], ys => by
    simp only [List.nil_append, keyedElems]
    cases keyedElems ys <;> rfl
  | x :: xs, ys => by
    rw [List.cons_append, keyedElems_cons, keyedElems_cons,
      keyedElems_append xs ys]
    cases get_object_key x with
    | none => rfl
    | some k =>
      cases keyedElems xs with
      | none => rfl
      | some kx =>
        cases keyedElems ys with
        | none => rfl
        | some ky => rfl

theorem keyedElems_mem_of {l : List Elem} {kl : List (List String × Elem)}
    (h : keyedElems l = some kl) {d : Elem} {k : List String}
    (hd : d ∈ l) (hk : get_object_key d = some k) : (k, d) ∈ kl := by
  induction l generalizing kl with
  | nil => simp at hd
  | cons c rest ih =>
    rw [keyedElems_cons] at h
    cases hc : get_object_key c with
    | none => rw [hc] at h; simp at h
    | some kc =>
      rw [hc] at h
      cases hr : keyedElems rest with
      | none => rw [hr] at h; simp at h
      | some kr =>
        rw [hr] at h
        injection h with h
        subst h
        rcases List.mem_cons.mp hd with h1 | h1
        · subst h1
          rw [hc] at hk
          injection hk with hk
          subst hk
          exact List.mem_cons_self _ _
        · exact List.mem_cons_of_mem _ (ih hr h1)

theorem dictGet_insert_dup {k1 k2 : List (List String × Elem)} {k : List String}
    {c : Elem} (hk : k ∈ k2.map Prod.fst) (q : List String) :
    dictGet (k1 ++ (k, c) :: k2) q = dictGet (k1 ++ k2) q := by
  unfold dictGet
  have hL : (k1 ++ (k, c) :: k2).reverse = k2.reverse ++ ([(k, c)] ++ k1.reverse) := by
    simp
  have hR : (k1 ++ k2).reverse = k2.reverse ++ k1.reverse := by simp
  rw [hL, hR, List.find?_append, List.find?_append, List.find?_append]
  cases hf : k2.reverse.find? (fun kv => kv.1 == q) with
  | some kv' => rfl
  | none =>
    by_cases hq : q = k
    · exfalso
      subst hq
      obtain ⟨kv, hkv, hfst⟩ := List.mem_map.mp hk
      have hsome : (k2.reverse.find? (fun kv => kv.1 == q)).isSome :=
        List.find?_isSome.mpr ⟨kv, List.mem_reverse.mpr hkv, by simp [hfst]⟩
      rw [hf] at hsome
      simp at hsome
    · simp only [Option.none_or]
      have h1 : (List.find? (fun kv => kv.1 == q) [(k, c)]) = none := by
        rw [List.find?_eq_none]
        intro kv hkv
        rcases List.mem_singleton.mp hkv with rfl
        simp only [beq_iff_eq]
        exact fun hc => hq hc.symm
      rw [h1]
      simp

theorem dictKeys_insert_dup_mem {k1 k2 : List (List String × Elem)} {k : List String}
    {c : Elem} (hk : k ∈ k2.map Prod.fst) (q : List String) :
    q ∈ dictKeys (k1 ++ (k, c) :: k2) ↔ q ∈ dictKeys (k1 ++ k2) := by
  unfold dictKeys
  rw [mem_dedupL, mem_dedupL, List.map_append, List.map_append, List.map_cons]
  simp only [List.mem_append, List.mem_cons]
  constructor
  · rintro (h | h | h)
    · left; exact h
    · right; rw [h]; exact hk
    · right; exact h
  · rintro (h | h)
    · left; exact h
    · right; right; exact h

theorem planObjects_mem_iff_keyed {ol ol' nl : List Elem} {p : String}
    (h : (keyedElems ol = none ∧ keyedElems ol' = none) ∨
      (∃ kold kold', keyedElems ol = some kold ∧ keyedElems ol' = some kold' ∧
        (∀ q, q ∈ dictKeys kold ↔ q ∈ dictKeys kold') ∧
        (∀ q, dictGet kold q = dictGet kold' q))) :
    ∀ t, t ∈ planObjects ol nl p ↔ t ∈ planObjects ol' nl p := by
  intro t
  unfold planObjects
  rcases h with ⟨h1, h2⟩ | ⟨kold, kold', h1, h2, hkeys, hget⟩
  · rw [h1, h2]
  · rw [h1, h2]
    cases hn : keyedElems nl with
    | none => exact Iff.rfl
    | some knew =>
      constructor
      · exact objPlan_mem_imp hkeys (fun q => Iff.rfl) hget (fun q => rfl) t
      · exact objPlan_mem_imp (fun q => (hkeys q).symm) (fun q => Iff.rfl)
          (fun q => (hget q).symm) (fun q => rfl) t

theorem listSize_append (l1 l2 : List Elem) :
    listSize (l1 ++ l2) = listSize l1 + listSize l2 := by
  unfold listSize
  rw [List.map_append, List.sum_append]

theorem listSize_cons (c : Elem) (l : List Elem) :
    listSize (c :: l) = c.size + listSize l := by
  unfold listSize
  rw [List.map_cons, List.sum_cons]

theorem planObjects_mem_iff_keyed_new {ol nl nl' : List Elem} {p : String}
    (h : (keyedElems nl = none ∧ keyedElems nl' = none) ∨
      (∃ knew knew', keyedElems nl = some knew ∧ keyedElems nl' = some knew' ∧
        (∀ q, q ∈ dictKeys knew ↔ q ∈ dictKeys knew') ∧
        (∀ q, dictGet knew q = dictGet knew' q))) :
    ∀ t, t ∈ planObjects ol nl p ↔ t ∈ planObjects ol nl' p := by
  intro t
  unfold planObjects
  rcases h with ⟨h1, h2⟩ | ⟨knew, knew', h1, h2, hkeys, hget⟩
  · rw [h1, h2]
  · rw [h1, h2]
    cases ho : keyedElems ol with
    | none => exact Iff.rfl
    | some kold =>
      constructor
      · exact objPlan_mem_imp (fun q => Iff.rfl) hkeys (fun q => rfl) hget t
      · exact objPlan_mem_imp (fun q => Iff.rfl) (fun q => (hkeys q).symm)
          (fun q => rfl) (fun q => (hget q).symm) t

/-- Claim C10 (confirmed): in the key-based strategy, when an
`object` sibling `c` derives the same key as some later sibling, `c`
does not participate, on whichever side its list is supplied: dropping
it from the old list, and likewise from the new list, leaves the
result unchanged (raising together, and otherwise holding the same set
of records), so the earlier duplicate produces no MissingNode,
ExtraNode, or Mismatch record of its own. -/
theorem c10_thm (xs ys nl : List Elem) (c : Elem) (k : List String) (p : String)
    (hck : get_object_key c = some k)
    (hdup : ys.any (fun d => get_object_key d == some k) = true) :
    OptSetEq (handle_object_nodes (xs ++ c :: ys) nl p)
      (handle_object_nodes (xs ++ ys) nl p) ∧
    OptSetEq (handle_object_nodes nl (xs ++ c :: ys) p)
      (handle_object_nodes nl (xs ++ ys) p) := by
  have hfacts : (keyedElems (xs ++ c :: ys) = none ∧ keyedElems (xs ++ ys) = none) ∨
      (∃ ka kb, keyedElems (xs ++ c :: ys) = some ka ∧ keyedElems (xs ++ ys) = some kb ∧
        (∀ q, q ∈ dictKeys ka ↔ q ∈ dictKeys kb) ∧
        (∀ q, dictGet ka q = dictGet kb q)) := by
    cases hx : keyedElems xs with
    | none =>
      left
      rw [keyedElems_append xs (c :: ys), keyedElems_append xs ys, hx]
      constructor
      · cases keyedElems (c :: ys) <;> rfl
      · cases keyedElems ys <;> rfl
    | some kx =>
      cases hy : keyedElems ys with
      | none =>
        left
        rw [keyedElems_append xs (c :: ys), keyedElems_append xs ys, hx, hy,
          keyedElems_cons, hck, hy]
        exact ⟨rfl, rfl⟩
      | some ky =>
        right
        have hkmem : k ∈ ky.map Prod.fst := by
          rw [List.any_eq_true] at hdup
          obtain ⟨d, hd, hdk⟩ := hdup
          have hdk2 : get_object_key d = some k := by simpa using hdk
          exact List.mem_map_of_mem Prod.fst (keyedElems_mem_of hy hd hdk2)
        refine ⟨kx ++ (k, c) :: ky, kx ++ ky, ?_, ?_, ?_, ?_⟩
        · rw [keyedElems_append xs (c :: ys), hx, keyedElems_cons, hck, hy]
        · rw [keyedElems_append xs ys, hx, hy]
        · exact dictKeys_insert_dup_mem hkmem
        · exact dictGet_insert_dup hkmem
  have hmemO : ∀ t, t ∈ planObjects (xs ++ c :: ys) nl p ↔
      t ∈ planObjects (xs ++ ys) nl p := planObjects_mem_iff_keyed hfacts
  have hmemN : ∀ t, t ∈ planObjects nl (xs ++ c :: ys) p ↔
      t ∈ planObjects nl (xs ++ ys) p := planObjects_mem_iff_keyed_new hfacts
  constructor
  · unfold handle_object_nodes
    apply runTasksF_set_congr hmemO
    intro t ht
    cases t with
    | emit rs => rfl
    | raise => rfl
    | cmp a b sp =>
      simp only [taskEvalF]
      have hmem2 := planObjects_cmp_mem ((hmemO _).mp ht)
      have ha := listSize_le_of_mem hmem2.1
      have hb := listSize_le_of_mem hmem2.2
      have hc := Elem.size_pos c
      apply diffF_fuel_irrel
      · rw [listSize_append, listSize_cons]
        rw [listSize_append] at ha
        omega
      · rw [listSize_append]
        rw [listSize_append] at ha
        omega
  · unfold handle_object_nodes
    apply runTasksF_set_congr hmemN
    intro t ht
    cases t with
    | emit rs => rfl
    | raise => rfl
    | cmp a b sp =>
      simp only [taskEvalF]
      have hmem2 := planObjects_cmp_mem ((hmemN _).mp ht)
      have ha := listSize_le_of_mem hmem2.1
      have hb := listSize_le_of_mem hmem2.2
      have hc := Elem.size_pos c
      apply diffF_fuel_irrel
      · rw [listSize_append, listSize_cons]
        rw [listSize_append] at hb
        omega
      · rw [listSize_append]
        rw [listSize_append] at hb
        omega

/-- The two duplicate-key objects of the `c10_thm` witness. -/
def dupObjA : Elem :=
  elem "object" [("type", "XDDEVMAPPINGMODEL")] (some "1")
    [elem "attribute" [("name", "sourcemodelpath")] (some "P") []]

def dupObjB : Elem :=
  elem "object" [("type", "XDDEVMAPPINGMODEL")] (some "2")
    [elem "attribute" [("name", "sourcemodelpath")] (some "P") []]

/-- Witness for `c10_thm`. -/
theorem c10_wit :
    (get_object_key dupObjA = some ["XDDEVMAPPINGMODEL", "P"] ∧
      ([dupObjB].any
        (fun d => get_object_key d == some ["XDDEVMAPPINGMODEL", "P"])) = true) ∧
    (OptSetEq (handle_object_nodes ([] ++ dupObjA :: [dupObjB]) [dupObjB] "p")
        (handle_object_nodes ([] ++ [dupObjB]) [dupObjB] "p") ∧
      OptSetEq (handle_object_nodes [dupObjB] ([] ++ dupObjA :: [dupObjB]) "p")
        (handle_object_nodes [dupObjB] ([] ++ [dupObjB]) "p")) :=
  ⟨⟨by decide, by decide⟩,
    c10_thm [] [dupObjB] [dupObjB] dupObjA ["XDDEVMAPPINGMODEL", "P"] "p"
      (by decide) (by decide)⟩

/-- Swap the roles of old and new in a record: old/new values exchanged,
MissingNode and ExtraNode kinds and categories exchanged; Mismatch
records keep their kind with values swapped. -/
def swapRec (r : DRec) : DRec :=
  ⟨if r.kind = TYPE_MISSING then TYPE_EXTRA
      else if r.kind = TYPE_EXTRA then TYPE_MISSING else r.kind,
    if r.category = CATEGORY_MISSING then CATEGORY_EXTRA
      else if r.category = CATEGORY_EXTRA then CATEGORY_MISSING else r.category,
    r.path, r.new, r.old, r.value, r.subtype⟩

theorem swapRec_involutive (r : DRec) : swapRec (swapRec r) = r := by
  have e1 : TYPE_EXTRA ≠ TYPE_MISSING := by decide
  have e2 : TYPE_MISSING ≠ TYPE_EXTRA := by decide
  have e3 : CATEGORY_EXTRA ≠ CATEGORY_MISSING := by decide
  have e4 : CATEGORY_MISSING ≠ CATEGORY_EXTRA := by decide
  obtain ⟨k, c, pa, ro, rn, rv, rs⟩ := r
  unfold swapRec
  by_cases h1 : k = TYPE_MISSING
  · by_cases h2 : c = CATEGORY_MISSING
    · simp [h1, h2, e1, e3]
    · by_cases h3 : c = CATEGORY_EXTRA <;> simp [h1, h2, h3, e1, e3, e4]
  · by_cases h2 : k = TYPE_EXTRA
    · by_cases h3 : c = CATEGORY_MISSING
      · simp [h1, h2, h3, e1, e2, e3]
      · by_cases h4 : c = CATEGORY_EXTRA <;> simp [h1, h2, h3, h4, e1, e2, e3, e4]
    · by_cases h3 : c = CATEGORY_MISSING
      · simp [h1, h2, h3, e1, e2, e3]
      · by_cases h4 : c = CATEGORY_EXTRA <;> simp [h1, h2, h3, h4, e1, e2, e3, e4]

theorem swapRec_inj {r s : DRec} (h : swapRec r = swapRec s) : r = s := by
  have := congrArg swapRec h
  rwa [swapRec_involutive, swapRec_involutive] at this

theorem mem_singleton_swap {r x : DRec} :
    r ∈ [swapRec x] ↔ swapRec r ∈ [x] := by
  simp only [List.mem_singleton]
  constructor
  · intro h; rw [h, swapRec_involutive]
  · intro h
    have := congrArg swapRec h
    rwa [swapRec_involutive] at this

theorem mem_map_swap {l : List DRec} {r : DRec} :
    r ∈ l.map swapRec ↔ swapRec r ∈ l := by
  constructor
  · intro h
    obtain ⟨x, hx, hxr⟩ := List.mem_map.mp h
    rw [← hxr, swapRec_involutive]
    exact hx
  · intro h
    exact List.mem_map.mpr ⟨swapRec r, h, swapRec_involutive r⟩

/-- Two optional record lists related by old/new swapping: they raise
together, and otherwise the second holds exactly the swaps of the
first's records (as sets). -/
def OptSwapRel : Option (List DRec) → Option (List DRec) → Prop
  | none, none => True
  | some l1, some l2 => ∀ r, r ∈ l2 ↔ swapRec r ∈ l1
  | _, _ => False

mutual
/-- No element of this subtree is tagged `key` (so the set-of-strings
strategy never fires during its comparison). -/
def Elem.noKey : Elem → Bool
  | .mk t _ _ c => !(t == "key") && c.noKeyL

/-- `Elem.noKey` over a child list. -/
def ElemList.noKeyL : ElemList → Bool
  | .nil => true
  | .cons e r => e.noKey && r.noKeyL
end

theorem ElemList.noKeyL_mem : ∀ (c : ElemList), c.noKeyL = true →
    ∀ a ∈ c.toList, a.noKey = true
  | .nil, _, a, ha => by simp [ElemList.toList] at ha
  | .cons e r, h, a, ha => by
    simp only [ElemList.noKeyL, Bool.and_eq_true] at h
    rcases List.mem_cons.mp ha with h1 | h1
    · subst h1; exact h.1
    · exact ElemList.noKeyL_mem r h.2 a h1

theorem Elem.noKey_children {e : Elem} (h : e.noKey = true) :
    ∀ a ∈ e.children, a.noKey = true := by
  cases e with
  | mk t a x c =>
    simp only [Elem.noKey, Bool.and_eq_true] at h
    simpa using ElemList.noKeyL_mem c h.2

theorem Elem.noKey_tag {e : Elem} (h : e.noKey = true) : (e.tag == "key") = false := by
  cases e with
  | mk t a x c =>
    simp only [Elem.noKey, Bool.and_eq_true, Bool.not_eq_true'] at h
    exact h.1

/-- The old-side-only skip guard of `compare_text`. -/
def txtGuard (e : Elem) : Bool :=
  e.tag == "attribute" && e.attrib.lookup "name" == some "mappingnumber"

theorem mem_filter_children_guard {l : List Elem} {a : Elem}
    (h : a ∈ filter_children l) : txtGuard a = false := by
  unfold filter_children at h
  rw [List.mem_filter] at h
  cases hg : txtGuard a with
  | false => rfl
  | true =>
    exfalso
    unfold txtGuard at hg
    rw [Bool.and_eq_true] at hg
    have h2 := h.2
    rw [hg.1] at h2
    have hlook := eq_of_beq hg.2
    rw [hlook] at h2
    simp at h2

theorem compare_text_swap {o n : Elem} (hg : txtGuard o = txtGuard n) (p : String) :
    compare_text n o p = (compare_text o n p).map swapRec := by
  unfold compare_text
  unfold txtGuard at hg
  cases hgo : (o.tag == "attribute" && o.attrib.lookup "name" == some "mappingnumber") with
  | true =>
    rw [hgo] at hg
    rw [← hg, if_pos rfl]
    simp
  | false =>
    rw [hgo] at hg
    rw [← hg]
    simp only [Bool.false_eq_true, if_false, if_neg]
    by_cases ht : pstrip (o.text.getD "") ≠ pstrip (n.text.getD "")
    · rw [if_pos ht, if_pos (by exact fun hc => ht hc.symm)]
      simp [swapRec, TYPE_MISMATCH, TYPE_MISSING, TYPE_EXTRA,
        CATEGORY_MISMATCH, CATEGORY_MISSING, CATEGORY_EXTRA]
    · rw [if_neg ht, if_neg (by simp only [not_not] at ht ⊢; exact ht.symm)]
      simp

theorem attr_record_swap (o n : Elem) (p a : String) :
    attr_record n o p a = swapRec (attr_record o n p a) := by
  simp [attr_record, swapRec, TYPE_MISMATCH, TYPE_MISSING, TYPE_EXTRA,
    CATEGORY_MISMATCH, CATEGORY_MISSING, CATEGORY_EXTRA]

theorem compare_attributes_mem {o n : Elem} {p : String} {r : DRec} :
    r ∈ compare_attributes o n p ↔
      ∃ a, a ∈ (o.attrib ++ n.attrib).map Prod.fst ∧
        IGNORED_ATTRIBUTES.contains a = false ∧
        o.attrib.lookup a ≠ n.attrib.lookup a ∧ r = attr_record o n p a := by
  unfold compare_attributes
  rw [List.mem_filterMap]
  constructor
  · rintro ⟨a, ha, hr⟩
    rw [List.mem_filter, mem_dedupL] at ha
    by_cases hne : o.attrib.lookup a ≠ n.attrib.lookup a
    · rw [if_pos hne] at hr
      injection hr with hr
      exact ⟨a, ha.1, by simpa using ha.2, hne, hr.symm⟩
    · rw [if_neg hne] at hr
      exact absurd hr (by simp)
  · rintro ⟨a, ha, hig, hne, hr⟩
    refine ⟨a, ?_, ?_⟩
    · rw [List.mem_filter, mem_dedupL]
      exact ⟨ha, by simpa using hig⟩
    · rw [if_pos hne, hr]

theorem compare_attributes_swap {o n : Elem} (p : String) (r : DRec) :
    r ∈ compare_attributes n o p ↔ swapRec r ∈ compare_attributes o n p := by
  rw [compare_attributes_mem, compare_attributes_mem]
  constructor
  · rintro ⟨a, ha, hig, hne, hr⟩
    refine ⟨a, ?_, hig, fun hc => hne hc.symm, ?_⟩
    · rw [List.map_append, List.mem_append] at ha ⊢
      tauto
    · rw [hr, attr_record_swap]
      exact swapRec_involutive _
  · rintro ⟨a, ha, hig, hne, hr⟩
    refine ⟨a, ?_, hig, fun hc => hne hc.symm, ?_⟩
    · rw [List.map_append, List.mem_append] at ha ⊢
      tauto
    · apply swapRec_inj
      rw [← attr_record_swap]
      exact hr

theorem absent_record_swap (e : Elem) (sp : String) :
    absent_record false e sp = (absent_record true e sp).map swapRec := by
  unfold absent_record
  cases hf : format_element e with
  | none => rfl
  | some s =>
    simp only [Option.map_some']
    simp [swapRec, TYPE_MISMATCH, TYPE_MISSING, TYPE_EXTRA,
      CATEGORY_MISMATCH, CATEGORY_MISSING, CATEGORY_EXTRA]

theorem compare_tags_swap (o n : Elem) (p : String) :
    compare_tags n o p = (compare_tags o n p).map swapRec := by
  unfold compare_tags
  by_cases h : o.tag = n.tag
  · rw [if_neg (fun hc => hc h.symm), if_neg (fun hc => hc h)]
    rfl
  · rw [if_pos (fun hc => h hc.symm), if_pos h]
    simp [swapRec, TYPE_MISMATCH, TYPE_MISSING, TYPE_EXTRA,
      CATEGORY_MISMATCH, CATEGORY_MISSING, CATEGORY_EXTRA]

theorem map_swapRec_involutive (l : List DRec) : (l.map swapRec).map swapRec = l := by
  rw [List.map_map]
  have : swapRec ∘ swapRec = id := by
    funext r
    exact swapRec_involutive r
  rw [this, List.map_id]

/-- Syntactic pairing of a dispatcher task with its mirror when the two
sides are exchanged: emitted records swapped, raises aligned, recursive
pairs flipped at the same sub-path. -/
inductive TaskSwapStruct : CTask → CTask → Prop where
  | emit (l : List DRec) : TaskSwapStruct (CTask.emit l) (CTask.emit (l.map swapRec))
  | raise : TaskSwapStruct CTask.raise CTask.raise
  | cmp (a b : Elem) (sp : String) : TaskSwapStruct (CTask.cmp a b sp) (CTask.cmp b a sp)

theorem TaskSwapStruct_symm {t1 t2 : CTask} (h : TaskSwapStruct t1 t2) :
    TaskSwapStruct t2 t1 := by
  cases h with
  | emit l =>
    have h2 := TaskSwapStruct.emit (l.map swapRec)
    rwa [map_swapRec_involutive] at h2
  | raise => exact TaskSwapStruct.raise
  | cmp a b sp => exact TaskSwapStruct.cmp b a sp

theorem objTask_swap (kold knew : List (List String × Elem)) (p : String)
    (k : List String) : TaskSwapStruct (objTask kold knew p k) (objTask knew kold p k) := by
  unfold objTask
  cases ho : dictGet kold k with
  | none =>
    cases hn : dictGet knew k with
    | none =>
      simp only []
      exact TaskSwapStruct.emit []
    | some cn =>
      simp only []
      cases hf : format_element cn with
      | none => exact TaskSwapStruct.raise
      | some s =>
        simp only []
        have hrec : [(⟨TYPE_MISSING, CATEGORY_MISSING,
            p ++ ".object[" ++ format_object_key k ++ "]",
            some (some s), none, none, none⟩ : DRec)].map swapRec =
            [⟨TYPE_EXTRA, CATEGORY_EXTRA,
              p ++ ".object[" ++ format_object_key k ++ "]",
              none, some (some s), none, none⟩] := by
          simp [swapRec, TYPE_MISSING, TYPE_EXTRA, CATEGORY_MISSING, CATEGORY_EXTRA]
        have h2 := TaskSwapStruct.emit
          [(⟨TYPE_EXTRA, CATEGORY_EXTRA,
            p ++ ".object[" ++ format_object_key k ++ "]",
            none, some (some s), none, none⟩ : DRec)]
        have hrec2 : [(⟨TYPE_EXTRA, CATEGORY_EXTRA,
            p ++ ".object[" ++ format_object_key k ++ "]",
            none, some (some s), none, none⟩ : DRec)].map swapRec =
            [⟨TYPE_MISSING, CATEGORY_MISSING,
              p ++ ".object[" ++ format_object_key k ++ "]",
              some (some s), none, none, none⟩] := by
          simp [swapRec, TYPE_MISSING, TYPE_EXTRA, CATEGORY_MISSING, CATEGORY_EXTRA]
        rw [hrec2] at h2
        exact h2
  | some co =>
    cases hn : dictGet knew k with
    | none =>
      simp only []
      cases hf : format_element co with
      | none => exact TaskSwapStruct.raise
      | some s =>
        simp only []
        have h2 := TaskSwapStruct.emit
          [(⟨TYPE_MISSING, CATEGORY_MISSING,
            p ++ ".object[" ++ format_object_key k ++ "]",
            some (some s), none, none, none⟩ : DRec)]
        have hrec : [(⟨TYPE_MISSING, CATEGORY_MISSING,
            p ++ ".object[" ++ format_object_key k ++ "]",
            some (some s), none, none, none⟩ : DRec)].map swapRec =
            [⟨TYPE_EXTRA, CATEGORY_EXTRA,
              p ++ ".object[" ++ format_object_key k ++ "]",
              none, some (some s), none, none⟩] := by
          simp [swapRec, TYPE_MISSING, TYPE_EXTRA, CATEGORY_MISSING, CATEGORY_EXTRA]
        rw [hrec] at h2
        exact h2
    | some cn =>
      simp only []
      exact TaskSwapStruct.cmp co cn _

theorem defTask_swap (ol nl : List Elem) (p tg : String) (m i : Nat) :
    TaskSwapStruct (defTask ol nl p tg m i) (defTask nl ol p tg m i) := by
  unfold defTask
  cases ho : ol[i]? with
  | none =>
    cases hn : nl[i]? with
    | none =>
      simp only []
      exact TaskSwapStruct.emit []
    | some cn =>
      simp only []
      rw [absent_record_swap]
      cases hr : absent_record true cn (defSubpath p tg m i) with
      | none => exact TaskSwapStruct.raise
      | some r =>
        simp only [Option.map_some']
        have h2 := TaskSwapStruct.emit [swapRec r]
        simp only [List.map_cons, List.map_nil, swapRec_involutive] at h2
        exact h2
  | some co =>
    cases hn : nl[i]? with
    | none =>
      simp only []
      rw [absent_record_swap]
      cases hr : absent_record true co (defSubpath p tg m i) with
      | none => exact TaskSwapStruct.raise
      | some r =>
        simp only [Option.map_some']
        exact TaskSwapStruct.emit [r]
    | some cn =>
      simp only []
      exact TaskSwapStruct.cmp co cn _

theorem mem_union_keys {l1 l2 : List (List String)} {k : List String} :
    k ∈ l1 ++ l2.filter (fun x => !l1.contains x) ↔ k ∈ l1 ∨ k ∈ l2 := by
  rw [List.mem_append, List.mem_filter]
  by_cases h : k ∈ l1
  · simp [h]
  · simp [h]

theorem planObjects_swap {ol nl : List Elem} {p : String} :
    ∀ t2 ∈ planObjects nl ol p, ∃ t1 ∈ planObjects ol nl p, TaskSwapStruct t1 t2 := by
  intro t2 ht2
  unfold planObjects at ht2 ⊢
  cases hko : keyedElems ol with
  | none =>
    cases hkn : keyedElems nl with
    | none =>
      rw [hko, hkn] at ht2
      simp only [List.mem_singleton] at ht2
      subst ht2
      exact ⟨CTask.raise, by simp, TaskSwapStruct.raise⟩
    | some knew =>
      rw [hko, hkn] at ht2
      simp only [List.mem_singleton] at ht2
      subst ht2
      exact ⟨CTask.raise, by simp, TaskSwapStruct.raise⟩
  | some kold =>
    cases hkn : keyedElems nl with
    | none =>
      rw [hko, hkn] at ht2
      simp only [List.mem_singleton] at ht2
      subst ht2
      exact ⟨CTask.raise, by simp, TaskSwapStruct.raise⟩
    | some knew =>
      rw [hko, hkn] at ht2
      obtain ⟨k, hk, hmap⟩ := List.mem_map.mp ht2
      have hk2 : k ∈ dictKeys knew ∨ k ∈ dictKeys kold := mem_union_keys.mp hk
      have hk3 : k ∈ dictKeys kold ++ (dictKeys knew).filter
          (fun x => !(dictKeys kold).contains x) := mem_union_keys.mpr hk2.symm
      refine ⟨objTask kold knew p k, List.mem_map.mpr ⟨k, hk3, rfl⟩, ?_⟩
      rw [← hmap]
      exact objTask_swap kold knew p k

theorem planDefault_swap {ol nl : List Elem} {p tg : String} :
    ∀ t2 ∈ planDefault nl ol p tg, ∃ t1 ∈ planDefault ol nl p tg, TaskSwapStruct t1 t2 := by
  intro t2 ht2
  unfold planDefault at ht2 ⊢
  simp only [] at ht2 ⊢
  obtain ⟨i, hi, hmap⟩ := List.mem_map.mp ht2
  have hmax : max ol.length nl.length = max nl.length ol.length := Nat.max_comm _ _
  refine ⟨defTask ol nl p tg (max ol.length nl.length) i,
    List.mem_map.mpr ⟨i, by rw [List.mem_range] at hi ⊢; omega, rfl⟩, ?_⟩
  rw [← hmap, hmax]
  exact defTask_swap ol nl p tg (max nl.length ol.length) i

theorem tagTasks_swap {oc nc : List Elem} {p tg : String} (hk : (tg == "key") = false) :
    ∀ t2 ∈ tagTasks nc oc p tg, ∃ t1 ∈ tagTasks oc nc p tg, TaskSwapStruct t1 t2 := by
  intro t2 ht2
  unfold tagTasks at ht2 ⊢
  rw [hk] at ht2 ⊢
  simp only [Bool.false_and, Bool.false_eq_true, if_false] at ht2 ⊢
  by_cases h2 : (tg == "object") = true
  · rw [if_pos h2] at ht2 ⊢
    exact planObjects_swap t2 ht2
  · rw [if_neg h2] at ht2 ⊢
    exact planDefault_swap t2 ht2

theorem planChildren_swap {oc nc : List Elem} {p : String}
    (ho : ∀ e ∈ oc, e.noKey = true) (hn : ∀ e ∈ nc, e.noKey = true) :
    ∀ t2 ∈ planChildren nc oc p, ∃ t1 ∈ planChildren oc nc p, TaskSwapStruct t1 t2 := by
  intro t2 ht2
  unfold planChildren at ht2 ⊢
  rw [List.mem_flatten] at ht2
  obtain ⟨group, hg, hmem⟩ := ht2
  obtain ⟨tg, htg, hbody⟩ := List.mem_map.mp hg
  subst hbody
  rw [mem_dedupL] at htg
  obtain ⟨e, he, hetag⟩ := List.mem_map.mp htg
  have hek : e.noKey = true := by
    rcases List.mem_append.mp he with h1 | h1
    · exact hn e (filter_children_subset h1)
    · exact ho e (filter_children_subset h1)
  have hknotkey : (tg == "key") = false := by
    rw [← hetag]
    exact Elem.noKey_tag hek
  obtain ⟨t1, ht1, hstruct⟩ := tagTasks_swap hknotkey t2 hmem
  refine ⟨t1, ?_, hstruct⟩
  rw [List.mem_flatten]
  refine ⟨tagTasks (filter_children oc) (filter_children nc) p tg, ?_, ht1⟩
  refine List.mem_map.mpr ⟨tg, ?_, rfl⟩
  rw [mem_dedupL]
  refine List.mem_map.mpr ⟨e, ?_, hetag⟩
  rw [List.mem_append] at he ⊢
  exact he.symm

theorem optSwapRel_none {y : Option (List DRec)} (h : OptSwapRel none y) : y = none := by
  cases y with
  | none => rfl
  | some l => exact False.elim h

theorem optSwapRel_none_right {x : Option (List DRec)} (h : OptSwapRel x none) : x = none := by
  cases x with
  | none => rfl
  | some l => exact False.elim h

theorem optSwapRel_some {l1 : List DRec} {y : Option (List DRec)}
    (h : OptSwapRel (some l1) y) :
    ∃ l2, y = some l2 ∧ ∀ r, r ∈ l2 ↔ swapRec r ∈ l1 := by
  cases y with
  | none => exact False.elim h
  | some l2 => exact ⟨l2, rfl, h⟩

theorem runTasksF_swap {f : Nat} {ts1 ts2 : List CTask}
    (H1 : ∀ t2 ∈ ts2, ∃ t1 ∈ ts1, OptSwapRel (taskEvalF f t1) (taskEvalF f t2))
    (H2 : ∀ t1 ∈ ts1, ∃ t2 ∈ ts2, OptSwapRel (taskEvalF f t1) (taskEvalF f t2)) :
    OptSwapRel (runTasksF f ts1) (runTasksF f ts2) := by
  cases h1 : runTasksF f ts1 with
  | none =>
    have h2 : runTasksF f ts2 = none := by
      rw [runTasksF_eq_none_iff] at h1 ⊢
      obtain ⟨t1, ht1, hev⟩ := h1
      obtain ⟨t2, ht2, hrel⟩ := H2 t1 ht1
      rw [hev] at hrel
      exact ⟨t2, ht2, optSwapRel_none hrel⟩
    rw [h2]
    trivial
  | some l1 =>
    cases h2 : runTasksF f ts2 with
    | none =>
      exfalso
      rw [runTasksF_eq_none_iff] at h2
      obtain ⟨t2, ht2, hev⟩ := h2
      obtain ⟨t1, ht1, hrel⟩ := H1 t2 ht2
      rw [hev] at hrel
      have := optSwapRel_none_right hrel
      have hcon : runTasksF f ts1 = none :=
        (runTasksF_eq_none_iff _ _).mpr ⟨t1, ht1, this⟩
      rw [h1] at hcon
      exact absurd hcon (by simp)
    | some l2 =>
      intro r
      rw [runTasksF_eq_some _ _ h2 r, runTasksF_eq_some _ _ h1 (swapRec r)]
      constructor
      · rintro ⟨t2, ht2, u2, hev2, hr2⟩
        obtain ⟨t1, ht1, hrel⟩ := H1 t2 ht2
        cases hev1 : taskEvalF f t1 with
        | none =>
          rw [hev1] at hrel
          rw [optSwapRel_none hrel] at hev2
          exact absurd hev2 (by simp)
        | some u1 =>
          rw [hev1, hev2] at hrel
          exact ⟨t1, ht1, u1, hev1, (hrel r).mp hr2⟩
      · rintro ⟨t1, ht1, u1, hev1, hr1⟩
        obtain ⟨t2, ht2, hrel⟩ := H2 t1 ht1
        rw [hev1] at hrel
        obtain ⟨u2, hev2, hiff⟩ := optSwapRel_some hrel
        exact ⟨t2, ht2, u2, hev2, (hiff r).mpr hr1⟩

theorem taskSwapStruct_eval {fuel : Nat} {o n : Elem} {p : String} {t1 t2 : CTask}
    (ih : ∀ (a b : Elem) (sp : String), txtGuard a = txtGuard b → a.noKey = true →
      b.noKey = true → OptSwapRel (diffF fuel a b sp) (diffF fuel b a sp))
    (ho : o.noKey = true) (hn : n.noKey = true)
    (hmem : t1 ∈ planChildren o.children n.children p)
    (hs : TaskSwapStruct t1 t2) :
    OptSwapRel (taskEvalF fuel t1) (taskEvalF fuel t2) := by
  cases hs with
  | emit l =>
    intro r
    exact mem_map_swap
  | raise => trivial
  | cmp a b sp =>
    obtain ⟨ha, hb⟩ := planChildren_cmp_mem_filtered hmem
    have hga := mem_filter_children_guard ha
    have hgb := mem_filter_children_guard hb
    have hka : a.noKey = true := Elem.noKey_children ho a (filter_children_subset ha)
    have hkb : b.noKey = true := Elem.noKey_children hn b (filter_children_subset hb)
    exact ih a b sp (hga.trans hgb.symm) hka hkb

/-- Symmetry of the fueled comparator on key-free trees whose text-skip
guards agree: exchanging the two sides raises together and otherwise
produces exactly the swapped record set, at the same fuel. -/
theorem diffF_swap :
    ∀ (fuel : Nat) (o n : Elem) (p : String),
      txtGuard o = txtGuard n → o.noKey = true → n.noKey = true →
      OptSwapRel (diffF fuel o n p) (diffF fuel n o p) := by
  intro fuel
  induction fuel with
  | zero =>
    intro o n p hg ho hn
    exact trivial
  | succ f ih =>
    intro o n p hg ho hn
    rw [diffF_succ f o n p, diffF_succ f n o p]
    by_cases hne : o.tag ≠ n.tag
    · rw [if_pos hne, if_pos (Ne.symm hne)]
      intro r
      rw [compare_tags_swap o n p]
      exact mem_map_swap
    · rw [if_neg hne, if_neg (fun hc => hne (Ne.symm hc))]
      have H1 : ∀ t2 ∈ planChildren n.children o.children p,
          ∃ t1 ∈ planChildren o.children n.children p,
            OptSwapRel (taskEvalF f t1) (taskEvalF f t2) := by
        intro t2 ht2
        obtain ⟨t1, ht1, hstruct⟩ :=
          planChildren_swap (Elem.noKey_children ho) (Elem.noKey_children hn) t2 ht2
        exact ⟨t1, ht1, taskSwapStruct_eval ih ho hn ht1 hstruct⟩
      have H2 : ∀ t1 ∈ planChildren o.children n.children p,
          ∃ t2 ∈ planChildren n.children o.children p,
            OptSwapRel (taskEvalF f t1) (taskEvalF f t2) := by
        intro t1 ht1
        obtain ⟨t2, ht2, hstruct⟩ :=
          planChildren_swap (Elem.noKey_children hn) (Elem.noKey_children ho) t1 ht1
        exact ⟨t2, ht2, taskSwapStruct_eval ih ho hn ht1 (TaskSwapStruct_symm hstruct)⟩
      have hrel := runTasksF_swap H1 H2
      cases h1 : runTasksF f (planChildren o.children n.children p) with
      | none =>
        cases h2 : runTasksF f (planChildren n.children o.children p) with
        | none => trivial
        | some l2 =>
          rw [h1, h2] at hrel
          exact False.elim hrel
      | some l1 =>
        cases h2 : runTasksF f (planChildren n.children o.children p) with
        | none =>
          rw [h1, h2] at hrel
          exact False.elim hrel
        | some l2 =>
          rw [h1, h2] at hrel
          intro r
          have hct : r ∈ compare_text n o p ↔ swapRec r ∈ compare_text o n p := by
            rw [compare_text_swap hg]
            exact mem_map_swap
          have hca := @compare_attributes_swap o n p r
          have hl := hrel r
          rw [List.mem_append, List.mem_append, List.mem_append, List.mem_append]
          tauto

/-- Claim C6, counterexample: symmetry fails inside a plist dict.  The
rename record of the set-of-strings strategy is indexed by the position
of the removed value in each direction of comparison, using that
direction itself as the old side: comparing keys `[K, M]` against
`[N, K]` reports the rename at `key[1]`, the reverse comparison at
`key[0]`, so the two directions do not contain the same path set. -/
theorem c6_cex :
    ¬ OptSwapRel
      (diff_elements
        (some (elem "dict" [] none
          [elem "key" [] (some "K") [], elem "key" [] (some "M") []]))
        (some (elem "dict" [] none
          [elem "key" [] (some "N") [], elem "key" [] (some "K") []]))
        "x.plist.dict")
      (diff_elements
        (some (elem "dict" [] none
          [elem "key" [] (some "N") [], elem "key" [] (some "K") []]))
        (some (elem "dict" [] none
          [elem "key" [] (some "K") [], elem "key" [] (some "M") []]))
        "x.plist.dict") := by
  intro h
  have e1 : diff_elements
      (some (elem "dict" [] none
        [elem "key" [] (some "K") [], elem "key" [] (some "M") []]))
      (some (elem "dict" [] none
        [elem "key" [] (some "N") [], elem "key" [] (some "K") []]))
      "x.plist.dict" =
      some [⟨TYPE_MISMATCH, CATEGORY_MISMATCH, "x.plist.dict.key[1] text",
        some (some "M"), some (some "N"), none, some "text"⟩] := by decide
  have e2 : diff_elements
      (some (elem "dict" [] none
        [elem "key" [] (some "N") [], elem "key" [] (some "K") []]))
      (some (elem "dict" [] none
        [elem "key" [] (some "K") [], elem "key" [] (some "M") []]))
      "x.plist.dict" =
      some [⟨TYPE_MISMATCH, CATEGORY_MISMATCH, "x.plist.dict.key[0] text",
        some (some "N"), some (some "M"), none, some "text"⟩] := by decide
  rw [e1, e2] at h
  have h2 := h ⟨TYPE_MISMATCH, CATEGORY_MISMATCH, "x.plist.dict.key[0] text",
    some (some "N"), some (some "M"), none, some "text"⟩
  have h3 := h2.mp (List.mem_singleton_self _)
  rw [List.mem_singleton] at h3
  exact absurd h3 (by decide)

/-- Claim C6 (amended): symmetry of the comparison holds for trees that
contain no `key`-tagged element (so the set-of-strings strategy, whose
rename and missing/extra records are indexed by the old side of each
direction, never fires) and whose roots agree on the `compare_text`
skip guard (which inspects only the old element): `diff_elements` on
the swapped pair raises exactly when the original does, and otherwise
its record set is exactly the swap of the original one — same paths,
Mismatch old/new exchanged, MissingNode and ExtraNode exchanged. -/
theorem c6_thm (A B : Elem) (p : String) (hg : txtGuard A = txtGuard B)
    (hA : A.noKey = true) (hB : B.noKey = true) :
    OptSwapRel (diff_elements (some A) (some B) p)
      (diff_elements (some B) (some A) p) := by
  rw [diff_elements_present, diff_elements_present, Nat.add_comm B.size A.size]
  exact diffF_swap (A.size + B.size) A B p hg hA hB

/-- Witness for `c6_thm`. -/
theorem c6_wit :
    (txtGuard (elem "root" [] none [elem "a" [] (some "1") []]) =
        txtGuard (elem "root" [] none [elem "a" [] (some "2") []]) ∧
      (elem "root" [] none [elem "a" [] (some "1") []]).noKey = true ∧
      (elem "root" [] none [elem "a" [] (some "2") []]).noKey = true) ∧
    OptSwapRel
      (diff_elements (some (elem "root" [] none [elem "a" [] (some "1") []]))
        (some (elem "root" [] none [elem "a" [] (some "2") []])) "p")
      (diff_elements (some (elem "root" [] none [elem "a" [] (some "2") []]))
        (some (elem "root" [] none [elem "a" [] (some "1") []])) "p") :=
  ⟨⟨by decide, by decide, by decide⟩,
    c6_thm _ _ "p" (by decide) (by decide) (by decide)⟩
